import Mathlib

/-!
Verification of the geometric and data-structure core of a small incremental
2D Delaunay triangulation library: geometry primitives (`src/geo.rs`), a
free-list arena (`src/arena.rs`) and a 4-ary bounding-volume hierarchy
(`src/bvh.rs`).  The source's `f64` arithmetic is modelled exactly over `ℚ`
(division by zero follows Lean's `x / 0 = 0` convention; the source's
degenerate divisions produce `NaN`/`inf`, and neither semantics takes the
branches the specification attributes to them, as the theorems below record).
-/

namespace DelaunayVerify

/-- 2D point/vector (`Vec2` in `geo.rs`), `f64` coordinates modelled as `ℚ`. -/
@[ext]
structure Vec2 where
  x : ℚ
  y : ℚ
  deriving DecidableEq

instance : Add Vec2 := ⟨fun a b => ⟨a.x + b.x, a.y + b.y⟩⟩

instance : Sub Vec2 := ⟨fun a b => ⟨a.x - b.x, a.y - b.y⟩⟩

instance : HMul Vec2 ℚ Vec2 := ⟨fun a r => ⟨a.x * r, a.y * r⟩⟩

instance : HDiv Vec2 ℚ Vec2 := ⟨fun a r => ⟨a.x / r, a.y / r⟩⟩

@[simp] theorem Vec2.add_x (a b : Vec2) : (a + b).x = a.x + b.x := rfl

@[simp] theorem Vec2.add_y (a b : Vec2) : (a + b).y = a.y + b.y := rfl

@[simp] theorem Vec2.sub_x (a b : Vec2) : (a - b).x = a.x - b.x := rfl

@[simp] theorem Vec2.sub_y (a b : Vec2) : (a - b).y = a.y - b.y := rfl

@[simp] theorem Vec2.smul_x (a : Vec2) (r : ℚ) : (a * r).x = a.x * r := rfl

@[simp] theorem Vec2.smul_y (a : Vec2) (r : ℚ) : (a * r).y = a.y * r := rfl

@[simp] theorem Vec2.sdiv_x (a : Vec2) (r : ℚ) : (a / r).x = a.x / r := rfl

@[simp] theorem Vec2.sdiv_y (a : Vec2) (r : ℚ) : (a / r).y = a.y / r := rfl

/-- `Vec2::norm2`. -/
def Vec2.norm2 (v : Vec2) : ℚ := v.x ^ 2 + v.y ^ 2

/-- `Vec2::dist2`. -/
def Vec2.dist2 (v p : Vec2) : ℚ := (v - p).norm2

/-- Axis-aligned bounding box (`Bbox` in `geo.rs`). -/
structure Bbox where
  min : Vec2
  max : Vec2
  deriving DecidableEq

/-- `Bbox::center`. -/
def Bbox.center (b : Bbox) : Vec2 := (b.min + b.max) / (2 : ℚ)

/-- `Bbox::split`: the four quadrants, in the source's fixed order
(bottom-left `[min, p]`, bottom-right, top-left, top-right `[p, max]`). -/
def Bbox.split (b : Bbox) (p : Vec2) : Bbox × Bbox × Bbox × Bbox :=
  (⟨b.min, p⟩,
   ⟨⟨p.x, b.min.y⟩, ⟨b.max.x, p.y⟩⟩,
   ⟨⟨b.min.x, p.y⟩, ⟨p.x, b.max.y⟩⟩,
   ⟨p, b.max⟩)

/-- `Bbox::contains`. -/
def Bbox.contains (b : Bbox) (p : Vec2) : Prop :=
  b.min.x ≤ p.x ∧ b.min.y ≤ p.y ∧ p.x ≤ b.max.x ∧ p.y ≤ b.max.y

instance (b : Bbox) (p : Vec2) : Decidable (b.contains p) := by
  unfold Bbox.contains; infer_instance

/-- Strict interior membership, used to state disjointness of quadrant
interiors. -/
def Bbox.inside (b : Bbox) (p : Vec2) : Prop :=
  b.min.x < p.x ∧ b.min.y < p.y ∧ p.x < b.max.x ∧ p.y < b.max.y

instance (b : Bbox) (p : Vec2) : Decidable (b.inside p) := by
  unfold Bbox.inside; infer_instance

/-- `Bbox::intersection`. -/
def Bbox.intersection (b other : Bbox) : Option Bbox :=
  let mnx := Max.max b.min.x other.min.x
  let mny := Max.max b.min.y other.min.y
  let mxx := Min.min b.max.x other.max.x
  let mxy := Min.min b.max.y other.max.y
  if mxx < mnx ∨ mxy < mny then none
  else some ⟨⟨mnx, mny⟩, ⟨mxx, mxy⟩⟩

/-- `Bbox::dimensions`. -/
def Bbox.dimensions (b : Bbox) : Vec2 := b.max - b.min

/-- `Bbox::area`. -/
def Bbox.area (b : Bbox) : ℚ := b.dimensions.x * b.dimensions.y

/-- `geo::collinear` (signed parallelogram area is zero). -/
def collinear (a b c : Vec2) : Prop :=
  a.x * (b.y - c.y) + b.x * (c.y - a.y) + c.x * (a.y - b.y) = 0

instance (a b c : Vec2) : Decidable (collinear a b c) := by
  unfold collinear; infer_instance

/-- `Circle` from `geo.rs`.  The source stores `center` and `radius : f64`;
the circumcircle's radius is a square root and thus irrational in general, so
the model stores the exact square `radius2` of the radius. -/
structure Circle where
  center : Vec2
  radius2 : ℚ
  deriving DecidableEq

/-- `Circle::circumcircle`, from the Cartesian formula in the source.  The
returned `radius2` is the square of the source's
`radius = Vec2::new(x, y).norm()`. -/
def Circle.circumcircle (a b c : Vec2) : Circle :=
  let b' := b - a
  let c' := c - a
  let d := 2 * (b'.x * c'.y - b'.y * c'.x)
  let x := (c'.y * (b'.x ^ 2 + b'.y ^ 2) - b'.y * (c'.x ^ 2 + c'.y ^ 2)) / d
  let y := (b'.x * (c'.x ^ 2 + c'.y ^ 2) - c'.x * (b'.x ^ 2 + b'.y ^ 2)) / d
  ⟨a + ⟨x, y⟩, Vec2.norm2 ⟨x, y⟩⟩

/-- `BarycentricCoords` from `geo.rs`. -/
structure BarycentricCoords where
  w0 : ℚ
  w1 : ℚ
  w2 : ℚ
  deriving DecidableEq

/-- `BarycentricCoords::triangle`; the triangle `[a, b, c]` is passed as a
triple. -/
def BarycentricCoords.triangle (t : Vec2 × Vec2 × Vec2) (p : Vec2) :
    Option BarycentricCoords :=
  let a := t.1
  let b := t.2.1
  let c := t.2.2
  let d := (b.y - c.y) * (a.x - c.x) + (c.x - b.x) * (a.y - c.y)
  let w0 := ((b.y - c.y) * (p.x - c.x) + (c.x - b.x) * (p.y - c.y)) / d
  let w1 := ((c.y - a.y) * (p.x - c.x) + (a.x - c.x) * (p.y - c.y)) / d
  let w2 := 1 - w0 - w1
  if 1 < w0 + w1 + w2 then none else some ⟨w0, w1, w2⟩

/-- `BarycentricCoords::to_point`. -/
def BarycentricCoords.to_point (w : BarycentricCoords) (t : Vec2 × Vec2 × Vec2) :
    Vec2 :=
  t.1 * w.w0 + t.2.1 * w.w1 + t.2.2 * w.w2

/-- The guard `w0 + w1 + w2 > 1` of `BarycentricCoords::triangle` can never
fire in exact arithmetic, since `w2` is defined as `1 - w0 - w1`. -/
theorem bary_guard (w0 w1 : ℚ) : ¬ (1 < w0 + w1 + (1 - w0 - w1)) := by
  intro h
  have h1 : w0 + w1 + (1 - w0 - w1) = 1 := by ring
  rw [h1] at h
  exact lt_irrefl 1 h

theorem bary_triangle_eq (a b c p : Vec2) :
    BarycentricCoords.triangle (a, b, c) p =
      some ⟨((b.y - c.y) * (p.x - c.x) + (c.x - b.x) * (p.y - c.y)) /
              ((b.y - c.y) * (a.x - c.x) + (c.x - b.x) * (a.y - c.y)),
            ((c.y - a.y) * (p.x - c.x) + (a.x - c.x) * (p.y - c.y)) /
              ((b.y - c.y) * (a.x - c.x) + (c.x - b.x) * (a.y - c.y)),
            1 - ((b.y - c.y) * (p.x - c.x) + (c.x - b.x) * (p.y - c.y)) /
              ((b.y - c.y) * (a.x - c.x) + (c.x - b.x) * (a.y - c.y)) -
              ((c.y - a.y) * (p.x - c.x) + (a.x - c.x) * (p.y - c.y)) /
              ((b.y - c.y) * (a.x - c.x) + (c.x - b.x) * (a.y - c.y))⟩ := by
  unfold BarycentricCoords.triangle
  simp only
  rw [if_neg (bary_guard _ _)]

attribute [local semireducible] Rat.add Rat.mul Rat.inv Rat.sub in
/-- C1 counterexample: the reference points `(0,0), (1,1), (2,2)` are
collinear, yet `BarycentricCoords::triangle` returns `some` (weights
`(0, 0, 1)`), not `none`: the `w0 + w1 + w2 > 1` guard cannot detect a zero
denominator. -/
theorem bary_triangle_collinear_not_none :
    collinear ⟨0, 0⟩ ⟨1, 1⟩ ⟨2, 2⟩ ∧
      BarycentricCoords.triangle (⟨0, 0⟩, ⟨1, 1⟩, ⟨2, 2⟩) ⟨0, 1⟩ ≠ none := by
  constructor
  · decide
  · decide

/-- C1 (amended): in exact arithmetic `BarycentricCoords::triangle` never
returns `none` — neither for collinear reference points nor for points outside
the triangle — because `w2` is defined as `1 - w0 - w1`, so the computed
weight sum is exactly `1` and the `> 1` guard never fires.  The returned
weights always satisfy `w0 + w1 + w2 = 1`. -/
theorem bary_triangle_always_some (a b c p : Vec2) :
    ∃ w : BarycentricCoords,
      BarycentricCoords.triangle (a, b, c) p = some w ∧ w.w0 + w.w1 + w.w2 = 1 := by
  refine ⟨_, bary_triangle_eq a b c p, ?_⟩
  ring

/-- C5: barycentric round-trip.  For a non-collinear triangle and any point
`p`, the weights returned by `triangle` reconstruct `p` exactly via
`to_point` (exact arithmetic, so equality holds outright, in particular within
the claimed `1e-6`). -/
theorem bary_roundtrip (a b c p : Vec2) (h : ¬ collinear a b c)
    (w : BarycentricCoords)
    (hw : BarycentricCoords.triangle (a, b, c) p = some w) :
    w.to_point (a, b, c) = p := by
  have hd : (b.y - c.y) * (a.x - c.x) + (c.x - b.x) * (a.y - c.y) ≠ 0 := by
    intro h0
    exact h (by unfold collinear; linear_combination h0)
  rw [bary_triangle_eq] at hw
  simp only [Option.some.injEq] at hw
  subst hw
  unfold BarycentricCoords.to_point
  ext
  · simp only [Vec2.add_x, Vec2.smul_x]
    field_simp
    ring
  · simp only [Vec2.add_y, Vec2.smul_y]
    field_simp
    ring

attribute [local semireducible] Rat.add Rat.mul Rat.inv Rat.sub in
/-- C5 witness: the round-trip at the triangle `(0,0), (1,0), (0,1)` and
`p = (1/4, 1/4)`. -/
theorem bary_roundtrip_witness :
    (BarycentricCoords.mk (1/2) (1/4) (1/4)).to_point (⟨0, 0⟩, ⟨1, 0⟩, ⟨0, 1⟩) =
      Vec2.mk (1/4) (1/4) :=
  bary_roundtrip ⟨0, 0⟩ ⟨1, 0⟩ ⟨0, 1⟩ ⟨1/4, 1/4⟩ (by decide) ⟨1/2, 1/4, 1/4⟩ (by decide)

/-- C4: for non-collinear `a, b, c`, `Circle::circumcircle` returns the unique
circle through them: its center has the same squared distance to `a`, `b` and
`c`, that common squared distance is the circle's squared radius (so the
source's `radius = norm(x, y)` is the common distance), and any point
equidistant from `a`, `b`, `c` is that center (uniqueness). -/
theorem circumcircle_correct (a b c : Vec2) (h : ¬ collinear a b c) :
    ((Circle.circumcircle a b c).center.dist2 a = (Circle.circumcircle a b c).radius2) ∧
    ((Circle.circumcircle a b c).center.dist2 b = (Circle.circumcircle a b c).radius2) ∧
    ((Circle.circumcircle a b c).center.dist2 c = (Circle.circumcircle a b c).radius2) ∧
    (∀ o : Vec2, o.dist2 a = o.dist2 b → o.dist2 a = o.dist2 c →
      o = (Circle.circumcircle a b c).center) := by
  have hd : 2 * ((b.x - a.x) * (c.y - a.y) - (b.y - a.y) * (c.x - a.x)) ≠ 0 := by
    intro h0
    apply h
    unfold collinear
    linear_combination h0 / 2
  refine ⟨?_, ?_, ?_, ?_⟩
  · simp only [Circle.circumcircle, Vec2.dist2, Vec2.norm2, Vec2.add_x, Vec2.add_y,
      Vec2.sub_x, Vec2.sub_y]
    ring
  · simp only [Circle.circumcircle, Vec2.dist2, Vec2.norm2, Vec2.add_x, Vec2.add_y,
      Vec2.sub_x, Vec2.sub_y]
    field_simp
    ring
  · simp only [Circle.circumcircle, Vec2.dist2, Vec2.norm2, Vec2.add_x, Vec2.add_y,
      Vec2.sub_x, Vec2.sub_y]
    field_simp
    ring
  · intro o e1 e2
    simp only [Vec2.dist2, Vec2.norm2, Vec2.sub_x, Vec2.sub_y] at e1 e2
    have ex : o.x = (Circle.circumcircle a b c).center.x := by
      simp only [Circle.circumcircle, Vec2.add_x, Vec2.sub_x, Vec2.sub_y]
      field_simp
      linear_combination ((c.y - a.y)) * e1 - ((b.y - a.y)) * e2
    have ey : o.y = (Circle.circumcircle a b c).center.y := by
      simp only [Circle.circumcircle, Vec2.add_y, Vec2.sub_x, Vec2.sub_y]
      field_simp
      linear_combination (-(c.x - a.x)) * e1 + ((b.x - a.x)) * e2
    exact Vec2.ext ex ey

attribute [local semireducible] Rat.add Rat.mul Rat.inv Rat.sub in
/-- C4 witness: the circumcircle of `(0,0), (3,4), (0,4)` is centered at
`(3/2, 2)` with squared radius `25/4` (radius `5/2`, as in the source's own
unit test), equidistant from all three vertices. -/
theorem circumcircle_correct_witness :
    ((Circle.circumcircle ⟨0, 0⟩ ⟨3, 4⟩ ⟨0, 4⟩).center.dist2 ⟨0, 0⟩ =
        (Circle.circumcircle ⟨0, 0⟩ ⟨3, 4⟩ ⟨0, 4⟩).radius2) ∧
    ((Circle.circumcircle ⟨0, 0⟩ ⟨3, 4⟩ ⟨0, 4⟩).center.dist2 ⟨3, 4⟩ =
        (Circle.circumcircle ⟨0, 0⟩ ⟨3, 4⟩ ⟨0, 4⟩).radius2) ∧
    ((Circle.circumcircle ⟨0, 0⟩ ⟨3, 4⟩ ⟨0, 4⟩).center.dist2 ⟨0, 4⟩ =
        (Circle.circumcircle ⟨0, 0⟩ ⟨3, 4⟩ ⟨0, 4⟩).radius2) ∧
    (∀ o : Vec2, o.dist2 ⟨0, 0⟩ = o.dist2 ⟨3, 4⟩ → o.dist2 ⟨0, 0⟩ = o.dist2 ⟨0, 4⟩ →
      o = (Circle.circumcircle ⟨0, 0⟩ ⟨3, 4⟩ ⟨0, 4⟩).center) :=
  circumcircle_correct ⟨0, 0⟩ ⟨3, 4⟩ ⟨0, 4⟩ (by decide)

/-! ## Arena (`src/arena.rs`) -/

/-- A slot of the arena's backing vector (`Node<T>` in `arena.rs`). -/
inductive ANode (T : Type) where
  | free (next_free : Option ℕ)
  | occupied (t : T)
  deriving DecidableEq

variable {T : Type}

/-- `Arena<T>`: backing vector plus head of the free list.  The typed handle
`ArenaId<T>` is a plain wrapper around an index, modelled as the raw `ℕ`. -/
structure Arena (T : Type) where
  data : List (ANode T)
  first_free : Option ℕ
  deriving DecidableEq

/-- `Arena::new`. -/
def Arena.new (T : Type) : Arena T := ⟨[], none⟩

/-- `Arena::push`: the new state and the returned handle.  `none` models the
`panic!("bug")` when the free-list head is occupied, or the implicit panic of
`self.data[f]` when it is out of range. -/
def Arena.push (a : Arena T) (v : T) : Option (Arena T × ℕ) :=
  match a.first_free with
  | none => some (⟨a.data ++ [ANode.occupied v], none⟩, a.data.length)
  | some f =>
    match a.data[f]? with
    | some (ANode.free nf) => some (⟨a.data.set f (ANode.occupied v), nf⟩, f)
    | _ => none

/-- `Arena::remove`: the removed value (if any) and the new state. -/
def Arena.remove (a : Arena T) (id : ℕ) : Option T × Arena T :=
  match a.data[id]? with
  | some (ANode.occupied t) =>
    (some t, ⟨a.data.set id (ANode.free a.first_free), some id⟩)
  | _ => (none, a)

/-- `Arena::get`. -/
def Arena.get (a : Arena T) (id : ℕ) : Option T :=
  match a.data[id]? with
  | some (ANode.occupied t) => some t
  | _ => none

/-- Writing `v` through `Arena::get_mut` (or `IndexMut`): stores `v` when the
slot is occupied; otherwise `get_mut` returns `None` and nothing changes. -/
def Arena.mutate (a : Arena T) (id : ℕ) (v : T) : Arena T :=
  match a.data[id]? with
  | some (ANode.occupied _) => ⟨a.data.set id (ANode.occupied v), a.first_free⟩
  | _ => a

/-- The closure of `Arena::enumerate`: keep occupied slots with their index. -/
def occEntry : ℕ × ANode T → Option (ℕ × T) := fun x =>
  match x.2 with
  | ANode.occupied t => some (x.1, t)
  | ANode.free _ => none

/-- `Arena::enumerate`. -/
def Arena.enumerate (a : Arena T) : List (ℕ × T) :=
  a.data.enum.filterMap occEntry

/-- `Arena::iter`. -/
def Arena.iter (a : Arena T) : List T := a.enumerate.map Prod.snd

/-- An arena operation other than the initial `push` under scrutiny: used to
quantify over "pushes, removes and mutations in between". -/
inductive AOp (T : Type) where
  | push (v : T)
  | remove (ix : ℕ)
  | mutate (ix : ℕ) (v : T)
  deriving DecidableEq

/-- Whether an operation addresses the handle `h`. -/
def AOp.touches : AOp T → ℕ → Prop
  | AOp.push _, _ => False
  | AOp.remove i, h => i = h
  | AOp.mutate i _, h => i = h

instance (op : AOp T) (h : ℕ) : Decidable (op.touches h) := by
  unfold AOp.touches; cases op <;> infer_instance

/-- Run a list of arena operations; `none` when a `push` hits the
`panic!("bug")` path. -/
def Arena.runOps (a : Arena T) : List (AOp T) → Option (Arena T)
  | [] => some a
  | AOp.push v :: ops => (a.push v).bind fun s => s.1.runOps ops
  | AOp.remove i :: ops => (a.remove i).2.runOps ops
  | AOp.mutate i v :: ops => (a.mutate i v).runOps ops

theorem Arena.get_eq_some_iff (a : Arena T) (i : ℕ) (v : T) :
    a.get i = some v ↔ a.data[i]? = some (ANode.occupied v) := by
  unfold Arena.get
  rcases hx : a.data[i]? with _ | n
  · simp
  · cases n <;> simp

theorem Arena.get_push (a : Arena T) (v : T) (s : Arena T × ℕ)
    (hp : a.push v = some s) : s.1.get s.2 = some v := by
  unfold Arena.push at hp
  split at hp
  · cases hp
    rw [Arena.get_eq_some_iff]
    exact List.getElem?_concat_length a.data (ANode.occupied v)
  · split at hp
    · rename_i x0 f hff x1 nf hx
      cases hp
      rw [Arena.get_eq_some_iff]
      have hf : f < a.data.length := by
        by_contra hc
        rw [List.getElem?_eq_none (by omega)] at hx
        cases hx
      exact List.getElem?_set_self hf
    · cases hp

theorem Arena.get_push_stable (a : Arena T) (v v' : T) (hh : ℕ) (s : Arena T × ℕ)
    (hm : a.get hh = some v) (hp : a.push v' = some s) : s.1.get hh = some v := by
  rw [Arena.get_eq_some_iff] at hm ⊢
  unfold Arena.push at hp
  split at hp
  · cases hp
    have hlen : hh < a.data.length := by
      rcases List.getElem?_eq_some.mp hm with ⟨hl, _⟩
      exact hl
    rw [List.getElem?_append_left hlen]
    exact hm
  · split at hp
    · rename_i x0 f hff x1 nf hx
      cases hp
      have hne : f ≠ hh := by
        intro he
        rw [he, hm] at hx
        cases hx
      rw [List.getElem?_set_ne hne]
      exact hm
    · cases hp

theorem Arena.get_remove_stable (a : Arena T) (v : T) (hh i : ℕ) (hne : i ≠ hh)
    (hm : a.get hh = some v) : (a.remove i).2.get hh = some v := by
  rw [Arena.get_eq_some_iff] at hm
  unfold Arena.remove
  rcases hx : a.data[i]? with _ | n
  · rwa [Arena.get_eq_some_iff]
  · rcases n with nf | t
    · rwa [Arena.get_eq_some_iff]
    · rw [Arena.get_eq_some_iff]
      simpa [List.getElem?_set_ne hne] using hm

theorem Arena.get_mutate_stable (a : Arena T) (v v' : T) (hh i : ℕ) (hne : i ≠ hh)
    (hm : a.get hh = some v) : (a.mutate i v').get hh = some v := by
  rw [Arena.get_eq_some_iff] at hm
  unfold Arena.mutate
  rcases hx : a.data[i]? with _ | n
  · rwa [Arena.get_eq_some_iff]
  · rcases n with nf | t
    · rwa [Arena.get_eq_some_iff]
    · rw [Arena.get_eq_some_iff]
      simpa [List.getElem?_set_ne hne] using hm

theorem Arena.get_runOps_stable (v : T) (hh : ℕ) (ops : List (AOp T)) :
    ∀ a : Arena T, a.get hh = some v → (∀ op ∈ ops, ¬ op.touches hh) →
      ∀ a' : Arena T, a.runOps ops = some a' → a'.get hh = some v := by
  induction ops with
  | nil =>
    intro a hm _ a' hrun
    cases hrun
    exact hm
  | cons op ops ih =>
    intro a hm hops a' hrun
    have hops' : ∀ op ∈ ops, ¬ op.touches hh := fun o ho => hops o (by simp [ho])
    cases op with
    | push w =>
      unfold Arena.runOps at hrun
      rcases hp : a.push w with _ | s <;> rw [hp] at hrun
      · cases hrun
      · exact ih s.1 (Arena.get_push_stable a v w hh s hm hp) hops' a' (by simpa using hrun)
    | remove i =>
      have hi : i ≠ hh := hops (AOp.remove i) (by simp)
      exact ih _ (Arena.get_remove_stable a v hh i hi hm) hops' a' hrun
    | mutate i w =>
      have hi : i ≠ hh := hops (AOp.mutate i w) (by simp)
      exact ih _ (Arena.get_mutate_stable a v w hh i hi hm) hops' a' hrun

/-- C7: a handle returned by `Arena::push` keeps dereferencing (via `get`, and
hence via indexing) to the pushed value across any sequence of pushes, removes
and mutations that do not address that handle. -/
theorem arena_push_get_stable (a : Arena T) (v : T) (s : Arena T × ℕ)
    (hpush : a.push v = some s) (ops : List (AOp T))
    (hops : ∀ op ∈ ops, ¬ op.touches s.2) (a₂ : Arena T)
    (hrun : s.1.runOps ops = some a₂) :
    a₂.get s.2 = some v :=
  Arena.get_runOps_stable v s.2 ops s.1 (Arena.get_push a v s hpush) hops a₂ hrun

/-- C7 witness: push `42` into an empty arena (handle `0`), then push `7`,
remove handle `1`, and try to overwrite handle `1`; handle `0` still reads
`42`. -/
theorem arena_push_get_stable_witness :
    Arena.get ⟨[ANode.occupied 42, ANode.free none], some 1⟩ 0 = some 42 :=
  arena_push_get_stable ⟨[], none⟩ 42 (⟨[ANode.occupied 42], none⟩, 0) (by decide)
    [AOp.push 7, AOp.remove 1, AOp.mutate 1 9] (by decide)
    ⟨[ANode.occupied 42, ANode.free none], some 1⟩ (by decide)

theorem mem_filterMap_enumFrom (l : List (ANode T)) :
    ∀ (n i : ℕ) (t : T),
      ((i, t) ∈ (l.enumFrom n).filterMap occEntry ↔
        ∃ k, i = n + k ∧ l[k]? = some (ANode.occupied t)) := by
  induction l with
  | nil =>
    intro n i t
    simp
  | cons nd l ih =>
    intro n i t
    rcases nd with nf | u
    · rw [List.enumFrom_cons, List.filterMap_cons]
      have hocc : occEntry (n, ANode.free nf) = (none : Option (ℕ × T)) := rfl
      rw [hocc]
      rw [ih (n + 1) i t]
      constructor
      · rintro ⟨k, hk, hl⟩
        exact ⟨k + 1, by omega, by simpa using hl⟩
      · rintro ⟨k, hk, hl⟩
        rcases k with _ | k
        · simp at hl
        · exact ⟨k, by omega, by simpa using hl⟩
    · rw [List.enumFrom_cons, List.filterMap_cons]
      have hocc : occEntry (n, ANode.occupied u) = some (n, u) := rfl
      rw [hocc]
      simp only [List.mem_cons, Prod.mk.injEq]
      rw [ih (n + 1) i t]
      constructor
      · rintro (⟨hi, hu⟩ | ⟨k, hk, hl⟩)
        · exact ⟨0, by omega, by simp [hu]⟩
        · exact ⟨k + 1, by omega, by simpa using hl⟩
      · rintro ⟨k, hk, hl⟩
        rcases k with _ | k
        · left
          simp only [List.getElem?_cons_zero, Option.some.injEq, ANode.occupied.injEq] at hl
          exact ⟨by omega, hl.symm⟩
        · right
          exact ⟨k, by omega, by simpa using hl⟩

theorem filterMap_enumFrom_lb (l : List (ANode T)) :
    ∀ (n : ℕ) (x : ℕ × T), x ∈ (l.enumFrom n).filterMap occEntry → n ≤ x.1 := by
  intro n x hx
  rcases (mem_filterMap_enumFrom l n x.1 x.2).mp hx with ⟨k, hk, _⟩
  omega

theorem pairwise_filterMap_enumFrom (l : List (ANode T)) :
    ∀ n : ℕ,
      List.Pairwise (fun x y : ℕ × T => x.1 < y.1) ((l.enumFrom n).filterMap occEntry) := by
  induction l with
  | nil => intro n; simp
  | cons nd l ih =>
    intro n
    rcases nd with nf | u
    · rw [List.enumFrom_cons, List.filterMap_cons]
      exact ih (n + 1)
    · rw [List.enumFrom_cons, List.filterMap_cons]
      have hocc : occEntry (n, ANode.occupied u) = some (n, u) := rfl
      rw [hocc]
      refine List.Pairwise.cons ?_ (ih (n + 1))
      intro y hy
      have := filterMap_enumFrom_lb l (n + 1) y hy
      simpa using by omega

/-- C8: `Arena::enumerate` (and `iter`, its second projection) yields exactly
the occupied slots — `(i, t)` is produced iff slot `i` holds `t` — skipping
free slots, with indices strictly increasing, i.e. in backing-vector
(insertion) order. -/
theorem arena_iteration_spec (a : Arena T) :
    (∀ (i : ℕ) (t : T),
        ((i, t) ∈ a.enumerate ↔ a.data[i]? = some (ANode.occupied t))) ∧
    List.Pairwise (fun i j : ℕ => i < j) (a.enumerate.map Prod.fst) ∧
    a.iter = a.enumerate.map Prod.snd := by
  refine ⟨fun i t => ?_, ?_, rfl⟩
  · unfold Arena.enumerate
    rw [List.enum, mem_filterMap_enumFrom a.data 0 i t]
    constructor
    · rintro ⟨k, hk, hl⟩
      rwa [show i = k by omega]
    · intro hl
      exact ⟨i, by omega, hl⟩
  · unfold Arena.enumerate
    rw [List.enum, List.pairwise_map]
    exact pairwise_filterMap_enumFrom a.data 0

/-- C9: `Arena::get` and `Arena::remove` on an out-of-range index or a free
slot report "not found" (`none`) and `remove` leaves the arena unchanged,
while `remove` on an occupied slot returns the stored value and pushes the
slot onto the free list (the slot becomes `Free` pointing to the old head and
`first_free` becomes this slot). -/
theorem arena_get_remove_spec (a : Arena T) (i : ℕ) :
    (a.data[i]? = none → a.get i = none ∧ a.remove i = (none, a)) ∧
    (∀ nf, a.data[i]? = some (ANode.free nf) →
      a.get i = none ∧ a.remove i = (none, a)) ∧
    (∀ t, a.data[i]? = some (ANode.occupied t) →
      a.remove i = (some t, ⟨a.data.set i (ANode.free a.first_free), some i⟩)) := by
  refine ⟨fun hn => ?_, fun nf hn => ?_, fun t hn => ?_⟩
  · unfold Arena.get Arena.remove
    rw [hn]
    exact ⟨rfl, rfl⟩
  · unfold Arena.get Arena.remove
    rw [hn]
    exact ⟨rfl, rfl⟩
  · unfold Arena.remove
    rw [hn]

/-! ## BVH (`src/bvh.rs`) -/

/-- `LEAF_SIZE` from `bvh.rs`. -/
def LEAF_SIZE : ℕ := 128

/-- `MIN_BBOX_AREA` from `bvh.rs` (`1e0`). -/
def MIN_BBOX_AREA : ℚ := 1

/-- `BvhNode<Elem>`: a leaf with its entries, or a branch with four children
(the source's `Box<[BvhNode; 4]>` becomes four fields). -/
inductive BvhNode (α : Type) where
  | leaf (elems : List (α × Bbox)) (bbox : Bbox)
  | branch (bbox : Bbox) (c0 c1 c2 c3 : BvhNode α)
  deriving DecidableEq

variable {α : Type}

/-- The node's bounding box (the `match` in `BvhNode::intersects`). -/
def BvhNode.bbox : BvhNode α → Bbox
  | BvhNode.leaf _ b => b
  | BvhNode.branch b _ _ _ _ => b

/-- `BvhNode::intersects`. -/
def BvhNode.intersects (n : BvhNode α) (e_bbox : Bbox) : Prop :=
  n.bbox.intersection e_bbox ≠ none

instance (n : BvhNode α) (e_bbox : Bbox) : Decidable (n.intersects e_bbox) := by
  unfold BvhNode.intersects; infer_instance

/-- `BvhNode::insert`, with `BvhNode::split` inlined as the overflow branch of
the leaf case: the drained entries are folded, in order, through the
insert-into-every-intersecting-child loop over four fresh quadrant leaves
(that loop is the branch case of `insert` itself).  The recursion is made
total with an explicit `fuel` argument; `none` means the fuel ran out, and
claim C3's theorem shows that enough fuel always exists. -/
def BvhNode.insertF : ℕ → BvhNode α → α → Bbox → Option (BvhNode α)
  | 0, _, _, _ => none
  | fuel + 1, BvhNode.leaf elems bbox, e, e_bbox =>
    let elems' := elems ++ [(e, e_bbox)]
    if LEAF_SIZE < elems'.length ∧ MIN_BBOX_AREA < bbox.area then
      let q := bbox.split bbox.center
      elems'.foldlM (fun n (eb : α × Bbox) => BvhNode.insertF fuel n eb.1 eb.2)
        (BvhNode.branch bbox (BvhNode.leaf [] q.1) (BvhNode.leaf [] q.2.1)
          (BvhNode.leaf [] q.2.2.1) (BvhNode.leaf [] q.2.2.2))
    else some (BvhNode.leaf elems' bbox)
  | fuel + 1, BvhNode.branch bbox c0 c1 c2 c3, e, e_bbox =>
    (if c0.intersects e_bbox then BvhNode.insertF fuel c0 e e_bbox else some c0).bind
      fun d0 =>
    (if c1.intersects e_bbox then BvhNode.insertF fuel c1 e e_bbox else some c1).bind
      fun d1 =>
    (if c2.intersects e_bbox then BvhNode.insertF fuel c2 e e_bbox else some c2).bind
      fun d2 =>
    (if c3.intersects e_bbox then BvhNode.insertF fuel c3 e e_bbox else some c3).bind
      fun d3 =>
    some (BvhNode.branch bbox d0 d1 d2 d3)
  termination_by structural fuel _ _ _ => fuel

/-- `BvhNode::remove` (`retain` keeps the entries whose element differs). -/
def BvhNode.removeE [DecidableEq α] : BvhNode α → α → Bbox → BvhNode α
  | BvhNode.leaf elems lb, e, _ => BvhNode.leaf (elems.filter fun ee => ee.1 != e) lb
  | BvhNode.branch bb c0 c1 c2 c3, e, bbox =>
    BvhNode.branch bb
      (if c0.intersects bbox then c0.removeE e bbox else c0)
      (if c1.intersects bbox then c1.removeE e bbox else c1)
      (if c2.intersects bbox then c2.removeE e bbox else c2)
      (if c3.intersects bbox then c3.removeE e bbox else c3)

/-- Number of nodes; budgets the iterative `enclosing` traversal. -/
def BvhNode.size : BvhNode α → ℕ
  | BvhNode.leaf _ _ => 1
  | BvhNode.branch _ c0 c1 c2 c3 => c0.size + c1.size + c2.size + c3.size + 1

/-- The `enclosing` iterator's loop: an explicit stack of nodes still to visit
(`nodes` in the source; the list head is the stack top, so a popped branch
pushes its children with `c3` ending on top), yielding the matching entries of
each popped leaf in order.  One fuel unit per iteration; `size + 1` always
suffices. -/
def BvhNode.enclosingLoopF (p : Vec2) (pred : α → Vec2 → Bool) :
    ℕ → List (BvhNode α) → List α
  | 0, _ => []
  | _ + 1, [] => []
  | fuel + 1, BvhNode.leaf elems _ :: rest =>
    (elems.filter fun eb => pred eb.1 p).map Prod.fst ++
      BvhNode.enclosingLoopF p pred fuel rest
  | fuel + 1, BvhNode.branch bb c0 c1 c2 c3 :: rest =>
    if bb.contains p then
      BvhNode.enclosingLoopF p pred fuel (c3 :: c2 :: c1 :: c0 :: rest)
    else BvhNode.enclosingLoopF p pred fuel rest
  termination_by structural fuel _ => fuel

/-- Total size of a traversal stack. -/
def stackSize (stk : List (BvhNode α)) : ℕ := (stk.map BvhNode.size).sum

/-- `BvhNode::enclosing`: run the iterator to exhaustion. -/
def BvhNode.enclosing (n : BvhNode α) (p : Vec2) (pred : α → Vec2 → Bool) : List α :=
  BvhNode.enclosingLoopF p pred (n.size + 1) [n]

/-- Recursive characterisation of the `enclosing` traversal (the very list
produced by the iterator: children of a traversed branch appear `c3` first,
as they come off the stack; leaves are scanned unconditionally). -/
def BvhNode.encRec : BvhNode α → Vec2 → (α → Vec2 → Bool) → List α
  | BvhNode.leaf elems _, p, pred => (elems.filter fun eb => pred eb.1 p).map Prod.fst
  | BvhNode.branch bb c0 c1 c2 c3, p, pred =>
    if bb.contains p then
      c3.encRec p pred ++ (c2.encRec p pred ++ (c1.encRec p pred ++ c0.encRec p pred))
    else []

/-- All entries currently stored in the subtree's leaves. -/
def BvhNode.storedEntries : BvhNode α → List (α × Bbox)
  | BvhNode.leaf elems _ => elems
  | BvhNode.branch _ c0 c1 c2 c3 =>
    c0.storedEntries ++ (c1.storedEntries ++ (c2.storedEntries ++ c3.storedEntries))

/-- Brute-force linear scan of every stored entry with the same predicate. -/
def BvhNode.linearScan (n : BvhNode α) (p : Vec2) (pred : α → Vec2 → Bool) : List α :=
  (n.storedEntries.filter fun eb => pred eb.1 p).map Prod.fst

/-- A `Bvh` operation: `Bvh::insert` or `Bvh::remove`. -/
inductive BvhOp (α : Type) where
  | ins (e : α) (b : Bbox)
  | rem (e : α) (b : Bbox)
  deriving DecidableEq

/-- Run a sequence of `insert`/`remove` operations against the root node,
giving every insert the same fuel. -/
def BvhNode.runOps [DecidableEq α] (fuel : ℕ) :
    BvhNode α → List (BvhOp α) → Option (BvhNode α)
  | t, [] => some t
  | t, BvhOp.ins e b :: ops =>
    (BvhNode.insertF fuel t e b).bind fun t' => BvhNode.runOps fuel t' ops
  | t, BvhOp.rem e b :: ops => BvhNode.runOps fuel (t.removeE e b) ops

/-- `Bvh<Elem>` wraps the root node. -/
structure Bvh (α : Type) where
  root : BvhNode α
  deriving DecidableEq

/-- `Bvh::new`: a single empty leaf over the world bbox. -/
def Bvh.new (bbox : Bbox) : Bvh α := ⟨BvhNode.leaf [] bbox⟩

/-- `Bvh::insert` (fuelled, like `BvhNode::insert`). -/
def Bvh.insertF (fuel : ℕ) (b : Bvh α) (e : α) (e_bbox : Bbox) : Option (Bvh α) :=
  (BvhNode.insertF fuel b.root e e_bbox).map Bvh.mk

/-- `Bvh::remove`. -/
def Bvh.remove [DecidableEq α] (b : Bvh α) (e : α) (e_bbox : Bbox) : Bvh α :=
  ⟨b.root.removeE e e_bbox⟩

/-- `Bvh::enclosing`. -/
def Bvh.enclosing (b : Bvh α) (p : Vec2) (pred : α → Vec2 → Bool) : List α :=
  b.root.enclosing p pred

/-! ### Unfolding and fold-invariant infrastructure -/

theorem insertF_leaf_eq (f : ℕ) (elems : List (α × Bbox)) (bb : Bbox) (e : α)
    (b : Bbox) :
    BvhNode.insertF (f + 1) (BvhNode.leaf elems bb) e b =
      if LEAF_SIZE < (elems ++ [(e, b)]).length ∧ MIN_BBOX_AREA < bb.area then
        (elems ++ [(e, b)]).foldlM
          (fun n (eb : α × Bbox) => BvhNode.insertF f n eb.1 eb.2)
          (BvhNode.branch bb (BvhNode.leaf [] (bb.split bb.center).1)
            (BvhNode.leaf [] (bb.split bb.center).2.1)
            (BvhNode.leaf [] (bb.split bb.center).2.2.1)
            (BvhNode.leaf [] (bb.split bb.center).2.2.2))
      else some (BvhNode.leaf (elems ++ [(e, b)]) bb) := rfl

theorem insertF_branch_eq (f : ℕ) (bb : Bbox) (c0 c1 c2 c3 : BvhNode α) (e : α)
    (b : Bbox) :
    BvhNode.insertF (f + 1) (BvhNode.branch bb c0 c1 c2 c3) e b =
      (if c0.intersects b then BvhNode.insertF f c0 e b else some c0).bind fun d0 =>
      (if c1.intersects b then BvhNode.insertF f c1 e b else some c1).bind fun d1 =>
      (if c2.intersects b then BvhNode.insertF f c2 e b else some c2).bind fun d2 =>
      (if c3.intersects b then BvhNode.insertF f c3 e b else some c3).bind fun d3 =>
      some (BvhNode.branch bb d0 d1 d2 d3) := rfl

/-- Threading an invariant `I` and a per-element goal `Q` through the
redistribution fold of `insert`/`split`. -/
theorem foldlM_option_all {β : Type} (g : BvhNode α → β → Option (BvhNode α))
    (I : BvhNode α → Prop) (Q : β → BvhNode α → Prop)
    (l : List β)
    (hI : ∀ m x m', x ∈ l → g m x = some m' → I m → I m')
    (hQ : ∀ m x m', x ∈ l → g m x = some m' → I m → Q x m')
    (hQmono : ∀ m y m' x, y ∈ l → g m y = some m' → I m → Q x m → Q x m') :
    ∀ (m m' : BvhNode α), I m → l.foldlM g m = some m' →
      I m' ∧ ∀ x ∈ l, Q x m' := by
  induction l with
  | nil =>
    intro m m' hm hf
    rw [List.foldlM_nil] at hf
    cases hf
    exact ⟨hm, by simp⟩
  | cons x l ih =>
    intro m m' hm hf
    rw [List.foldlM_cons] at hf
    rcases hg : g m x with _ | m1
    · rw [hg] at hf
      cases hf
    · rw [hg] at hf
      simp only [Option.bind_eq_bind, Option.some_bind] at hf
      have hxl : x ∈ x :: l := by simp
      have hm1 : I m1 := hI m x m1 hxl hg hm
      have hq1 : Q x m1 := hQ m x m1 hxl hg hm
      have := ih
        (fun m y m' hy hgy hIm => hI m y m' (by simp [hy]) hgy hIm)
        (fun m y m' hy hgy hIm => hQ m y m' (by simp [hy]) hgy hIm)
        (fun m y m' z hy hgy hIm hq => hQmono m y m' z (by simp [hy]) hgy hIm hq)
        m1 m' hm1 hf
      refine ⟨this.1, fun z hz => ?_⟩
      rcases List.mem_cons.mp hz with rfl | hz'
      · -- `Q z` is established at the head step and carried through the rest
        have carry : ∀ (l' : List β) (a a' : BvhNode α),
            (∀ m y m', y ∈ l' → g m y = some m' → I m → I m') →
            (∀ m y m' w, y ∈ l' → g m y = some m' → I m → Q w m → Q w m') →
            I a → Q z a → l'.foldlM g a = some a' → Q z a' := by
          intro l'
          induction l' with
          | nil =>
            intro a a' _ _ _ hqa hfa
            rw [List.foldlM_nil] at hfa
            cases hfa
            exact hqa
          | cons y l' ihc =>
            intro a a' hIl hQl ha hqa hfa
            rw [List.foldlM_cons] at hfa
            rcases hgy : g a y with _ | a1
            · rw [hgy] at hfa
              cases hfa
            · rw [hgy] at hfa
              simp only [Option.bind_eq_bind, Option.some_bind] at hfa
              exact ihc a1 a'
                (fun m w m' hw => hIl m w m' (by simp [hw]))
                (fun m w m' ww hw => hQl m w m' ww (by simp [hw]))
                (hIl a y a1 (by simp) hgy ha)
                (hQl a y a1 z (by simp) hgy ha hqa) hfa
        exact carry l m1 m'
          (fun m y m' hy => hI m y m' (by simp [hy]))
          (fun m y m' w hy => hQmono m y m' w (by simp [hy]))
          hm1 hq1 hf
      · exact this.2 z hz'

/-! ### The `enclosing` iterator equals its recursive form -/

theorem stackSize_cons (n : BvhNode α) (stk : List (BvhNode α)) :
    stackSize (n :: stk) = n.size + stackSize stk := by
  simp [stackSize]

theorem enclosingLoopF_bridge (p : Vec2) (pred : α → Vec2 → Bool) :
    ∀ (fuel : ℕ) (stk : List (BvhNode α)), stackSize stk < fuel →
      BvhNode.enclosingLoopF p pred fuel stk =
        (stk.map fun n => n.encRec p pred).flatten := by
  intro fuel
  induction fuel with
  | zero =>
    intro stk h
    omega
  | succ fuel ih =>
    intro stk h
    match stk with
    | [] => simp [BvhNode.enclosingLoopF]
    | BvhNode.leaf elems bb :: rest =>
      rw [stackSize_cons] at h
      have hs : stackSize rest < fuel := by
        have : (BvhNode.leaf elems bb : BvhNode α).size = 1 := rfl
        omega
      simp [BvhNode.enclosingLoopF, ih rest hs, BvhNode.encRec]
    | BvhNode.branch bb c0 c1 c2 c3 :: rest =>
      rw [stackSize_cons] at h
      by_cases hc : bb.contains p
      · have hs : stackSize (c3 :: c2 :: c1 :: c0 :: rest) < fuel := by
          simp only [stackSize_cons] at *
          have : (BvhNode.branch bb c0 c1 c2 c3 : BvhNode α).size =
              c0.size + c1.size + c2.size + c3.size + 1 := rfl
          omega
        simp [BvhNode.enclosingLoopF, hc, ih _ hs, BvhNode.encRec]
      · have hs : stackSize rest < fuel := by
          have : 0 < (BvhNode.branch bb c0 c1 c2 c3 : BvhNode α).size := by
            have : (BvhNode.branch bb c0 c1 c2 c3 : BvhNode α).size =
                c0.size + c1.size + c2.size + c3.size + 1 := rfl
            omega
          omega
        simp [BvhNode.enclosingLoopF, hc, ih rest hs, BvhNode.encRec]

/-- The iterator (`BvhNode::enclosing`) produces exactly the recursive
traversal. -/
theorem enclosing_eq_encRec (n : BvhNode α) (p : Vec2) (pred : α → Vec2 → Bool) :
    n.enclosing p pred = n.encRec p pred := by
  unfold BvhNode.enclosing
  rw [enclosingLoopF_bridge p pred (n.size + 1) [n] (by simp [stackSize])]
  simp

/-! ### Pointwise facts about `Bbox.intersection` and `Bbox.split` -/

/-- A shared point certifies a non-`none` intersection. -/
theorem intersection_of_point (b b' : Bbox) (q : Vec2) (hb : b.contains q)
    (hb' : b'.contains q) : b.intersection b' ≠ none := by
  obtain ⟨h1, h2, h3, h4⟩ := hb
  obtain ⟨h5, h6, h7, h8⟩ := hb'
  unfold Bbox.intersection
  simp only
  rw [if_neg]
  · simp
  · push_neg
    constructor
    · exact le_trans (max_le h1 h5) (le_min h3 h7)
    · exact le_trans (max_le h2 h6) (le_min h4 h8)

/-- A non-`none` intersection yields a shared point (its min corner). -/
theorem point_of_intersection (b b' : Bbox) (h : b.intersection b' ≠ none) :
    ∃ q : Vec2, b.contains q ∧ b'.contains q := by
  unfold Bbox.intersection at h
  simp only at h
  split at h
  · simp at h
  · rename_i hcond
    push_neg at hcond
    refine ⟨⟨Max.max b.min.x b'.min.x, Max.max b.min.y b'.min.y⟩, ?_, ?_⟩
    · exact ⟨le_max_left _ _, le_max_left _ _,
        le_trans hcond.1 (min_le_left _ _), le_trans hcond.2 (min_le_left _ _)⟩
    · exact ⟨le_max_right _ _, le_max_right _ _,
        le_trans hcond.1 (min_le_right _ _), le_trans hcond.2 (min_le_right _ _)⟩

/-- Any point of the parent box lies in one of the four center-split
quadrants. -/
theorem contains_split_center (b : Bbox) (q : Vec2) (h : b.contains q) :
    (b.split b.center).1.contains q ∨ (b.split b.center).2.1.contains q ∨
      (b.split b.center).2.2.1.contains q ∨ (b.split b.center).2.2.2.contains q := by
  obtain ⟨h1, h2, h3, h4⟩ := h
  unfold Bbox.split Bbox.center Bbox.contains
  simp only [Vec2.add_x, Vec2.add_y, Vec2.sdiv_x, Vec2.sdiv_y]
  rcases le_total q.x ((b.min.x + b.max.x) / 2) with hx | hx <;>
    rcases le_total q.y ((b.min.y + b.max.y) / 2) with hy | hy
  · exact Or.inl ⟨h1, h2, hx, hy⟩
  · exact Or.inr (Or.inr (Or.inl ⟨h1, hy, hx, h4⟩))
  · exact Or.inr (Or.inl ⟨hx, h2, h3, hy⟩)
  · exact Or.inr (Or.inr (Or.inr ⟨hx, hy, h3, h4⟩))

/-- Each center-split quadrant is included in the parent box. -/
theorem split_center_sub (b : Bbox) (q : Vec2)
    (h : (b.split b.center).1.contains q ∨ (b.split b.center).2.1.contains q ∨
      (b.split b.center).2.2.1.contains q ∨ (b.split b.center).2.2.2.contains q) :
    b.contains q := by
  unfold Bbox.split Bbox.center Bbox.contains at h
  unfold Bbox.contains
  simp only [Vec2.add_x, Vec2.add_y, Vec2.sdiv_x, Vec2.sdiv_y] at h
  rcases h with ⟨h1, h2, h3, h4⟩ | ⟨h1, h2, h3, h4⟩ | ⟨h1, h2, h3, h4⟩ | ⟨h1, h2, h3, h4⟩ <;>
    refine ⟨by linarith, by linarith, by linarith, by linarith⟩

/-- Each quadrant of the center split has exactly a quarter of the parent's
area. -/
theorem split_center_area (b : Bbox) :
    (b.split b.center).1.area = b.area / 4 ∧
    (b.split b.center).2.1.area = b.area / 4 ∧
    (b.split b.center).2.2.1.area = b.area / 4 ∧
    (b.split b.center).2.2.2.area = b.area / 4 := by
  unfold Bbox.split Bbox.center Bbox.area Bbox.dimensions
  simp only [Vec2.add_x, Vec2.add_y, Vec2.sdiv_x, Vec2.sdiv_y, Vec2.sub_x, Vec2.sub_y]
  refine ⟨by ring, by ring, by ring, by ring⟩

/-! ### Structural invariants maintained by `insert` and `remove` -/

/-- Whether a node is a branch. -/
def BvhNode.isBranch : BvhNode α → Prop
  | BvhNode.leaf _ _ => False
  | BvhNode.branch _ _ _ _ _ => True

theorem mem_stored_branch (bb : Bbox) (c0 c1 c2 c3 : BvhNode α) (x : α × Bbox) :
    x ∈ (BvhNode.branch bb c0 c1 c2 c3).storedEntries ↔
      x ∈ c0.storedEntries ∨ x ∈ c1.storedEntries ∨ x ∈ c2.storedEntries ∨
        x ∈ c3.storedEntries := by
  simp [BvhNode.storedEntries]

/-- Every entry stored below the four children of a branch is stored below
each child whose bbox intersects the entry's bbox (the straddle-duplication
discipline of `insert`/`split`). -/
def BvhNode.dupAt (c0 c1 c2 c3 : BvhNode α) : Prop :=
  ∀ x : α × Bbox,
    x ∈ c0.storedEntries ∨ x ∈ c1.storedEntries ∨ x ∈ c2.storedEntries ∨
        x ∈ c3.storedEntries →
      (c0.intersects x.2 → x ∈ c0.storedEntries) ∧
      (c1.intersects x.2 → x ∈ c1.storedEntries) ∧
      (c2.intersects x.2 → x ∈ c2.storedEntries) ∧
      (c3.intersects x.2 → x ∈ c3.storedEntries)

/-- Invariant of every non-root node reachable by `insert`/`remove`: a leaf's
entries intersect the leaf's bbox; a branch's children carry the four
center-split quadrants of its box, duplicate straddling entries, and satisfy
the invariant recursively. -/
def BvhNode.invS : BvhNode α → Prop
  | BvhNode.leaf elems bb => ∀ x ∈ elems, bb.intersection x.2 ≠ none
  | BvhNode.branch bb c0 c1 c2 c3 =>
      c0.bbox = (bb.split bb.center).1 ∧ c1.bbox = (bb.split bb.center).2.1 ∧
      c2.bbox = (bb.split bb.center).2.2.1 ∧ c3.bbox = (bb.split bb.center).2.2.2 ∧
      BvhNode.dupAt c0 c1 c2 c3 ∧ c0.invS ∧ c1.invS ∧ c2.invS ∧ c3.invS

/-- Invariant at the root: a root leaf is unconstrained (entries of the
initial leaf need not fit the world box), a root branch satisfies `invS`. -/
def BvhNode.rootInv : BvhNode α → Prop
  | BvhNode.leaf _ _ => True
  | n => n.invS

theorem rootInv_leaf (elems : List (α × Bbox)) (bb : Bbox) :
    (BvhNode.leaf elems bb : BvhNode α).rootInv := trivial

theorem rootInv_branch (bb : Bbox) (c0 c1 c2 c3 : BvhNode α) :
    (BvhNode.branch bb c0 c1 c2 c3).rootInv ↔
      (BvhNode.branch bb c0 c1 c2 c3).invS := Iff.rfl

/-- Lift a non-empty intersection with a quadrant child's box to the parent
box. -/
theorem lift_fit (bb : Bbox) (c : BvhNode α)
    (hc : c.bbox = (bb.split bb.center).1 ∨ c.bbox = (bb.split bb.center).2.1 ∨
      c.bbox = (bb.split bb.center).2.2.1 ∨ c.bbox = (bb.split bb.center).2.2.2)
    (b' : Bbox) (h : c.bbox.intersection b' ≠ none) : bb.intersection b' ≠ none := by
  obtain ⟨q, hq1, hq2⟩ := point_of_intersection _ _ h
  refine intersection_of_point _ _ q ?_ hq2
  apply split_center_sub bb q
  rcases hc with h' | h' | h' | h' <;> rw [h'] at hq1 <;> tauto

/-- Under `invS`, every stored entry's bbox intersects the node's bbox. -/
theorem storedFit :
    ∀ n : BvhNode α, n.invS → ∀ x ∈ n.storedEntries,
      n.bbox.intersection x.2 ≠ none := by
  intro n
  induction n with
  | leaf elems bb =>
    intro h x hx
    exact h x hx
  | branch bb c0 c1 c2 c3 ih0 ih1 ih2 ih3 =>
    intro h x hx
    obtain ⟨hb0, hb1, hb2, hb3, hdup, h0, h1, h2, h3⟩ := h
    rw [mem_stored_branch] at hx
    show bb.intersection x.2 ≠ none
    rcases hx with hx | hx | hx | hx
    · exact lift_fit bb c0 (Or.inl hb0) x.2 (ih0 h0 x hx)
    · exact lift_fit bb c1 (Or.inr (Or.inl hb1)) x.2 (ih1 h1 x hx)
    · exact lift_fit bb c2 (Or.inr (Or.inr (Or.inl hb2))) x.2 (ih2 h2 x hx)
    · exact lift_fit bb c3 (Or.inr (Or.inr (Or.inr hb3))) x.2 (ih3 h3 x hx)

/-- Destructure a successful insert into a branch: the result is a branch
with the same box whose children come from the guarded child inserts. -/
theorem insertF_on_branch (f : ℕ) (bb : Bbox) (c0 c1 c2 c3 : BvhNode α) (e : α)
    (b : Bbox) (n' : BvhNode α)
    (h : BvhNode.insertF f (BvhNode.branch bb c0 c1 c2 c3) e b = some n') :
    ∃ (g : ℕ) (d0 d1 d2 d3 : BvhNode α), f = g + 1 ∧
      n' = BvhNode.branch bb d0 d1 d2 d3 ∧
      (if c0.intersects b then BvhNode.insertF g c0 e b else some c0) = some d0 ∧
      (if c1.intersects b then BvhNode.insertF g c1 e b else some c1) = some d1 ∧
      (if c2.intersects b then BvhNode.insertF g c2 e b else some c2) = some d2 ∧
      (if c3.intersects b then BvhNode.insertF g c3 e b else some c3) = some d3 := by
  cases f with
  | zero => cases h
  | succ g =>
    rw [insertF_branch_eq] at h
    rcases h0 : (if c0.intersects b then BvhNode.insertF g c0 e b else some c0)
      with _ | d0 <;> rw [h0] at h
    · cases h
    rcases h1 : (if c1.intersects b then BvhNode.insertF g c1 e b else some c1)
      with _ | d1 <;> rw [h1] at h
    · cases h
    rcases h2 : (if c2.intersects b then BvhNode.insertF g c2 e b else some c2)
      with _ | d2 <;> rw [h2] at h
    · cases h
    rcases h3 : (if c3.intersects b then BvhNode.insertF g c3 e b else some c3)
      with _ | d3 <;> rw [h3] at h
    · cases h
    simp only [Option.some_bind, Option.some.injEq] at h
    exact ⟨g, d0, d1, d2, d3, rfl, h.symm, h0, h1, h2, h3⟩

/-- `insert` never changes a node's bbox. -/
theorem insertF_bbox :
    ∀ (f : ℕ) (n : BvhNode α) (e : α) (b : Bbox) (n' : BvhNode α),
      BvhNode.insertF f n e b = some n' → n'.bbox = n.bbox := by
  intro f
  induction f with
  | zero => intro n e b n' h; cases h
  | succ f ih =>
    intro n e b n' h
    cases n with
    | leaf elems bb =>
      rw [insertF_leaf_eq] at h
      split at h
      · have hfold := foldlM_option_all
          (fun m (eb : α × Bbox) => BvhNode.insertF f m eb.1 eb.2)
          (fun m => m.bbox = bb) (fun _ _ => True) (elems ++ [(e, b)])
          (fun m x m' _ hg hm => (ih m x.1 x.2 m' hg).trans hm)
          (fun _ _ _ _ _ _ => trivial)
          (fun _ _ _ _ _ _ _ _ => trivial)
          (BvhNode.branch bb (BvhNode.leaf [] (bb.split bb.center).1)
            (BvhNode.leaf [] (bb.split bb.center).2.1)
            (BvhNode.leaf [] (bb.split bb.center).2.2.1)
            (BvhNode.leaf [] (bb.split bb.center).2.2.2)) n' rfl h
        exact hfold.1
      · cases h
        rfl
    | branch bb c0 c1 c2 c3 =>
      obtain ⟨g, d0, d1, d2, d3, hfg, rfl, _, _, _, _⟩ :=
        insertF_on_branch (f + 1) bb c0 c1 c2 c3 e b n' h
      rfl

/-- Inserting into a branch yields a branch. -/
theorem insertF_isBranch (f : ℕ) (n : BvhNode α) (e : α) (b : Bbox)
    (n' : BvhNode α) (h : BvhNode.insertF f n e b = some n') (hbr : n.isBranch) :
    n'.isBranch := by
  cases n with
  | leaf _ _ => exact hbr.elim
  | branch bb c0 c1 c2 c3 =>
    obtain ⟨g, d0, d1, d2, d3, _, rfl, _⟩ :=
      insertF_on_branch f bb c0 c1 c2 c3 e b n' h
    trivial

/-- The four fresh quadrant leaves of a split form an `invS` branch. -/
theorem freshBranch_invS (bb : Bbox) :
    (BvhNode.branch bb (BvhNode.leaf [] (bb.split bb.center).1)
      (BvhNode.leaf [] (bb.split bb.center).2.1)
      (BvhNode.leaf [] (bb.split bb.center).2.2.1)
      (BvhNode.leaf [] (bb.split bb.center).2.2.2) : BvhNode α).invS := by
  refine ⟨rfl, rfl, rfl, rfl, ?_, ?_, ?_, ?_, ?_⟩
  · rintro x (hx | hx | hx | hx) <;> simp [BvhNode.storedEntries] at hx
  · intro x hx; simp at hx
  · intro x hx; simp at hx
  · intro x hx; simp at hx
  · intro x hx; simp at hx

/-- The per-child step of the branch case, given the induction hypothesis for
the child fuel. -/
theorem insert_child_step (f : ℕ) (c : BvhNode α) (e : α) (b : Bbox)
    (d : BvhNode α)
    (h : (if c.intersects b then BvhNode.insertF f c e b else some c) = some d)
    (ih : ∀ (n : BvhNode α) (e : α) (b : Bbox) (n' : BvhNode α),
      BvhNode.insertF f n e b = some n' →
      (∀ x ∈ n'.storedEntries, x ∈ n.storedEntries ∨ x = (e, b)) ∧
      (¬ n.isBranch → n'.isBranch → n'.invS) ∧
      (n.invS → (n.bbox.intersection b ≠ none ∨ n.isBranch) →
        n'.invS ∧ (∀ x ∈ n.storedEntries, x ∈ n'.storedEntries) ∧
          (n.bbox.intersection b ≠ none → (e, b) ∈ n'.storedEntries))) :
    d.bbox = c.bbox ∧
    (∀ x ∈ d.storedEntries, x ∈ c.storedEntries ∨ x = (e, b)) ∧
    (c.invS →
      d.invS ∧ (∀ x ∈ c.storedEntries, x ∈ d.storedEntries) ∧
        (c.bbox.intersection b ≠ none → (e, b) ∈ d.storedEntries)) := by
  by_cases hc : c.intersects b
  · rw [if_pos hc] at h
    exact ⟨insertF_bbox f c e b d h, (ih c e b d h).1,
      fun hinv => (ih c e b d h).2.2 hinv (Or.inl hc)⟩
  · rw [if_neg hc] at h
    cases h
    exact ⟨rfl, fun x hx => Or.inl hx,
      fun hinv => ⟨hinv, fun x hx => hx, fun hfit => absurd hfit hc⟩⟩

/-- Main preservation properties of `insert`: newly stored entries are
`(e, b)`; a leaf that split becomes a well-formed branch; and on well-formed
input (with a fitting box, or at a branch) the invariant, the existing
entries, and — when `b` intersects the node box — the new entry are all
preserved/stored. -/
theorem insertF_main :
    ∀ (f : ℕ) (n : BvhNode α) (e : α) (b : Bbox) (n' : BvhNode α),
      BvhNode.insertF f n e b = some n' →
      (∀ x ∈ n'.storedEntries, x ∈ n.storedEntries ∨ x = (e, b)) ∧
      (¬ n.isBranch → n'.isBranch → n'.invS) ∧
      (n.invS → (n.bbox.intersection b ≠ none ∨ n.isBranch) →
        n'.invS ∧ (∀ x ∈ n.storedEntries, x ∈ n'.storedEntries) ∧
          (n.bbox.intersection b ≠ none → (e, b) ∈ n'.storedEntries)) := by
  intro f
  induction f with
  | zero => intro n e b n' h; cases h
  | succ f ih =>
    intro n e b n' h
    cases n with
    | leaf elems bb =>
      rw [insertF_leaf_eq] at h
      split at h
      · -- the leaf overflowed: redistribution fold over a fresh branch
        have main := foldlM_option_all
          (fun m (eb : α × Bbox) => BvhNode.insertF f m eb.1 eb.2)
          (fun m => m.invS ∧ m.bbox = bb ∧ m.isBranch ∧
            ∀ x ∈ m.storedEntries, x ∈ elems ++ [(e, b)])
          (fun eb m => bb.intersection eb.2 ≠ none → eb ∈ m.storedEntries)
          (elems ++ [(e, b)])
          (fun m x m' hx hg hm => by
            obtain ⟨hinv, hbb, hbr, hsub⟩ := hm
            refine ⟨((ih m x.1 x.2 m' hg).2.2 hinv (Or.inr hbr)).1,
              (insertF_bbox f m x.1 x.2 m' hg).trans hbb,
              insertF_isBranch f m x.1 x.2 m' hg hbr, fun y hy => ?_⟩
            rcases (ih m x.1 x.2 m' hg).1 y hy with h' | h'
            · exact hsub y h'
            · subst h'
              exact hx)
          (fun m x m' hx hg hm hfit => by
            obtain ⟨hinv, hbb, hbr, _⟩ := hm
            refine ((ih m x.1 x.2 m' hg).2.2 hinv (Or.inr hbr)).2.2 ?_
            rw [hbb]
            exact hfit)
          (fun m y m' x hy hg hm hq hfit => by
            obtain ⟨hinv, hbb, hbr, _⟩ := hm
            exact ((ih m y.1 y.2 m' hg).2.2 hinv (Or.inr hbr)).2.1 x (hq hfit))
          (BvhNode.branch bb (BvhNode.leaf [] (bb.split bb.center).1)
            (BvhNode.leaf [] (bb.split bb.center).2.1)
            (BvhNode.leaf [] (bb.split bb.center).2.2.1)
            (BvhNode.leaf [] (bb.split bb.center).2.2.2)) n'
          (by
            refine ⟨freshBranch_invS bb, rfl, trivial, ?_⟩
            rintro x (hx | hx | hx | hx) <;> simp [BvhNode.storedEntries] at hx)
          h
        obtain ⟨⟨hinv', hbb', hbr', hsub'⟩, hall⟩ := main
        refine ⟨?_, fun _ _ => hinv', fun hinvL _ => ⟨hinv', ?_, ?_⟩⟩
        · intro x hx
          rcases List.mem_append.mp (hsub' x hx) with h' | h'
          · exact Or.inl h'
          · simp only [List.mem_singleton] at h'
            exact Or.inr h'
        · intro x hx
          have hxl : x ∈ elems ++ [(e, b)] := List.mem_append.mpr (Or.inl hx)
          exact hall x hxl (hinvL x hx)
        · intro hfit
          exact hall (e, b) (List.mem_append.mpr (Or.inr (by simp))) hfit
      · -- no overflow: plain append
        cases h
        refine ⟨?_, fun _ hbr => hbr.elim, fun hinvL hside => ⟨?_, ?_, ?_⟩⟩
        · intro x hx
          rcases List.mem_append.mp hx with h' | h'
          · exact Or.inl h'
          · simp only [List.mem_singleton] at h'
            exact Or.inr h'
        · intro x hx
          rcases List.mem_append.mp hx with h' | h'
          · exact hinvL x h'
          · simp only [List.mem_singleton] at h'
            subst h'
            rcases hside with hfit | hbr
            · exact hfit
            · exact hbr.elim
        · intro x hx
          exact List.mem_append.mpr (Or.inl hx)
        · intro hfit
          exact List.mem_append.mpr (Or.inr (by simp))
    | branch bb c0 c1 c2 c3 =>
      obtain ⟨g, d0, d1, d2, d3, hfg, rfl, h0, h1, h2, h3⟩ :=
        insertF_on_branch (f + 1) bb c0 c1 c2 c3 e b _ h
      have hgf : g = f := by omega
      subst hgf
      have s0 := insert_child_step g c0 e b d0 h0 ih
      have s1 := insert_child_step g c1 e b d1 h1 ih
      have s2 := insert_child_step g c2 e b d2 h2 ih
      have s3 := insert_child_step g c3 e b d3 h3 ih
      have hcaseof : ∀ x, x ∈ (BvhNode.branch bb d0 d1 d2 d3).storedEntries →
          x ∈ (BvhNode.branch bb c0 c1 c2 c3).storedEntries ∨ x = (e, b) := by
        intro x hx
        rw [mem_stored_branch] at hx
        rcases hx with hx | hx | hx | hx
        · rcases s0.2.1 x hx with h' | h'
          · exact Or.inl ((mem_stored_branch bb c0 c1 c2 c3 x).mpr (Or.inl h'))
          · exact Or.inr h'
        · rcases s1.2.1 x hx with h' | h'
          · exact Or.inl ((mem_stored_branch bb c0 c1 c2 c3 x).mpr (Or.inr (Or.inl h')))
          · exact Or.inr h'
        · rcases s2.2.1 x hx with h' | h'
          · exact Or.inl
              ((mem_stored_branch bb c0 c1 c2 c3 x).mpr (Or.inr (Or.inr (Or.inl h'))))
          · exact Or.inr h'
        · rcases s3.2.1 x hx with h' | h'
          · exact Or.inl
              ((mem_stored_branch bb c0 c1 c2 c3 x).mpr (Or.inr (Or.inr (Or.inr h'))))
          · exact Or.inr h'
      refine ⟨hcaseof, fun hbr _ => (hbr trivial).elim, fun hinv _ => ?_⟩
      obtain ⟨hb0, hb1, hb2, hb3, hdup, i0, i1, i2, i3⟩ := hinv
      obtain ⟨d0inv, d0mono, d0mem⟩ := s0.2.2 i0
      obtain ⟨d1inv, d1mono, d1mem⟩ := s1.2.2 i1
      obtain ⟨d2inv, d2mono, d2mem⟩ := s2.2.2 i2
      obtain ⟨d3inv, d3mono, d3mem⟩ := s3.2.2 i3
      refine ⟨⟨s0.1.trans hb0, s1.1.trans hb1, s2.1.trans hb2, s3.1.trans hb3, ?_,
        d0inv, d1inv, d2inv, d3inv⟩, ?_, ?_⟩
      · -- straddle duplication for the updated children
        intro x hx
        rcases hcaseof x ((mem_stored_branch bb d0 d1 d2 d3 x).mpr hx) with hold | hnew
        · have hd := hdup x ((mem_stored_branch bb c0 c1 c2 c3 x).mp hold)
          refine ⟨fun hi => ?_, fun hi => ?_, fun hi => ?_, fun hi => ?_⟩
          · unfold BvhNode.intersects at hi
            rw [s0.1] at hi
            exact d0mono x (hd.1 hi)
          · unfold BvhNode.intersects at hi
            rw [s1.1] at hi
            exact d1mono x (hd.2.1 hi)
          · unfold BvhNode.intersects at hi
            rw [s2.1] at hi
            exact d2mono x (hd.2.2.1 hi)
          · unfold BvhNode.intersects at hi
            rw [s3.1] at hi
            exact d3mono x (hd.2.2.2 hi)
        · subst hnew
          refine ⟨fun hi => ?_, fun hi => ?_, fun hi => ?_, fun hi => ?_⟩
          · unfold BvhNode.intersects at hi
            rw [s0.1] at hi
            exact d0mem hi
          · unfold BvhNode.intersects at hi
            rw [s1.1] at hi
            exact d1mem hi
          · unfold BvhNode.intersects at hi
            rw [s2.1] at hi
            exact d2mem hi
          · unfold BvhNode.intersects at hi
            rw [s3.1] at hi
            exact d3mem hi
      · intro x hx
        rw [mem_stored_branch] at hx
        rw [mem_stored_branch]
        rcases hx with hx | hx | hx | hx
        · exact Or.inl (d0mono x hx)
        · exact Or.inr (Or.inl (d1mono x hx))
        · exact Or.inr (Or.inr (Or.inl (d2mono x hx)))
        · exact Or.inr (Or.inr (Or.inr (d3mono x hx)))
      · intro hfit
        obtain ⟨q, hq1, hq2⟩ := point_of_intersection bb b hfit
        rw [mem_stored_branch]
        rcases contains_split_center bb q hq1 with hq | hq | hq | hq
        · refine Or.inl (d0mem ?_)
          rw [hb0]
          exact intersection_of_point _ _ q hq hq2
        · refine Or.inr (Or.inl (d1mem ?_))
          rw [hb1]
          exact intersection_of_point _ _ q hq hq2
        · refine Or.inr (Or.inr (Or.inl (d2mem ?_)))
          rw [hb2]
          exact intersection_of_point _ _ q hq hq2
        · refine Or.inr (Or.inr (Or.inr (d3mem ?_)))
          rw [hb3]
          exact intersection_of_point _ _ q hq hq2

theorem intersects_congr (m n : BvhNode α) (h : m.bbox = n.bbox) (b : Bbox) :
    m.intersects b ↔ n.intersects b := by
  unfold BvhNode.intersects
  rw [h]

theorem removeE_bbox [DecidableEq α] (e : α) (rb : Bbox) (n : BvhNode α) :
    (n.removeE e rb).bbox = n.bbox := by
  cases n <;> rfl

theorem removeE_isBranch [DecidableEq α] (e : α) (rb : Bbox) (n : BvhNode α)
    (h : n.isBranch) : (n.removeE e rb).isBranch := by
  cases n with
  | leaf _ _ => exact h.elim
  | branch _ _ _ _ _ => trivial

/-- `remove` either recurses into an intersecting child or leaves it alone;
under the invariant and the discipline that all copies of `e` carry the
removed box `rb`, the child's entries are exactly filtered. -/
theorem remove_child_step [DecidableEq α] (e : α) (rb : Bbox) (c : BvhNode α)
    (hc : (c.invS → (∀ x ∈ c.storedEntries, x.1 = e → x.2 = rb) →
        ((c.removeE e rb).invS ∧
          ∀ x, x ∈ (c.removeE e rb).storedEntries ↔
            x ∈ c.storedEntries ∧ x.1 ≠ e)))
    (hinv : c.invS) (hbox : ∀ x ∈ c.storedEntries, x.1 = e → x.2 = rb) :
    (if c.intersects rb then c.removeE e rb else c).bbox = c.bbox ∧
    (if c.intersects rb then c.removeE e rb else c).invS ∧
    ∀ x, x ∈ (if c.intersects rb then c.removeE e rb else c).storedEntries ↔
      x ∈ c.storedEntries ∧ x.1 ≠ e := by
  by_cases h : c.intersects rb
  · rw [if_pos h]
    obtain ⟨hi, hch⟩ := hc hinv hbox
    exact ⟨removeE_bbox e rb c, hi, hch⟩
  · rw [if_neg h]
    refine ⟨rfl, hinv, fun x => ⟨fun hx => ⟨hx, ?_⟩, fun hx => hx.1⟩⟩
    intro hxe
    have hx2 : x.2 = rb := hbox x hx hxe
    have hfit := storedFit c hinv x hx
    rw [hx2] at hfit
    exact h hfit

/-- `remove` only ever deletes entries, and under the invariant it deletes
exactly the entries whose element is `e` (all of which carry box `rb`). -/
theorem removeE_main [DecidableEq α] (e : α) (rb : Bbox) :
    ∀ n : BvhNode α,
      (∀ x ∈ (n.removeE e rb).storedEntries, x ∈ n.storedEntries) ∧
      (n.invS → (∀ x ∈ n.storedEntries, x.1 = e → x.2 = rb) →
        ((n.removeE e rb).invS ∧
          ∀ x, x ∈ (n.removeE e rb).storedEntries ↔
            x ∈ n.storedEntries ∧ x.1 ≠ e)) := by
  intro n
  induction n with
  | leaf elems bb =>
    have hrm : (BvhNode.leaf elems bb : BvhNode α).removeE e rb =
        BvhNode.leaf (elems.filter fun ee => ee.1 != e) bb := rfl
    constructor
    · intro x hx
      rw [hrm] at hx
      exact (List.mem_filter.mp hx).1
    · intro hinv _
      constructor
      · rw [hrm]
        intro x hx
        exact hinv x (List.mem_filter.mp hx).1
      · intro x
        rw [hrm]
        show x ∈ elems.filter (fun ee => ee.1 != e) ↔ x ∈ elems ∧ x.1 ≠ e
        rw [List.mem_filter, bne_iff_ne]
  | branch bb c0 c1 c2 c3 ih0 ih1 ih2 ih3 =>
    have hrm : (BvhNode.branch bb c0 c1 c2 c3 : BvhNode α).removeE e rb =
        BvhNode.branch bb
          (if c0.intersects rb then c0.removeE e rb else c0)
          (if c1.intersects rb then c1.removeE e rb else c1)
          (if c2.intersects rb then c2.removeE e rb else c2)
          (if c3.intersects rb then c3.removeE e rb else c3) := rfl
    have sub : ∀ c : BvhNode α,
        (∀ x ∈ (c.removeE e rb).storedEntries, x ∈ c.storedEntries) →
        ∀ x ∈ (if c.intersects rb then c.removeE e rb else c).storedEntries,
          x ∈ c.storedEntries := by
      intro c hc x hx
      by_cases h : c.intersects rb
      · rw [if_pos h] at hx
        exact hc x hx
      · rw [if_neg h] at hx
        exact hx
    constructor
    · intro x hx
      rw [hrm, mem_stored_branch] at hx
      rw [mem_stored_branch]
      rcases hx with hx | hx | hx | hx
      · exact Or.inl (sub c0 ih0.1 x hx)
      · exact Or.inr (Or.inl (sub c1 ih1.1 x hx))
      · exact Or.inr (Or.inr (Or.inl (sub c2 ih2.1 x hx)))
      · exact Or.inr (Or.inr (Or.inr (sub c3 ih3.1 x hx)))
    · intro hinv hbox
      obtain ⟨hb0, hb1, hb2, hb3, hdup, i0, i1, i2, i3⟩ := hinv
      have hbox0 : ∀ x ∈ c0.storedEntries, x.1 = e → x.2 = rb := fun x hx =>
        hbox x ((mem_stored_branch bb c0 c1 c2 c3 x).mpr (Or.inl hx))
      have hbox1 : ∀ x ∈ c1.storedEntries, x.1 = e → x.2 = rb := fun x hx =>
        hbox x ((mem_stored_branch bb c0 c1 c2 c3 x).mpr (Or.inr (Or.inl hx)))
      have hbox2 : ∀ x ∈ c2.storedEntries, x.1 = e → x.2 = rb := fun x hx =>
        hbox x ((mem_stored_branch bb c0 c1 c2 c3 x).mpr (Or.inr (Or.inr (Or.inl hx))))
      have hbox3 : ∀ x ∈ c3.storedEntries, x.1 = e → x.2 = rb := fun x hx =>
        hbox x ((mem_stored_branch bb c0 c1 c2 c3 x).mpr (Or.inr (Or.inr (Or.inr hx))))
      have t0 := remove_child_step e rb c0 ih0.2 i0 hbox0
      have t1 := remove_child_step e rb c1 ih1.2 i1 hbox1
      have t2 := remove_child_step e rb c2 ih2.2 i2 hbox2
      have t3 := remove_child_step e rb c3 ih3.2 i3 hbox3
      rw [hrm]
      constructor
      · refine ⟨t0.1.trans hb0, t1.1.trans hb1, t2.1.trans hb2, t3.1.trans hb3, ?_,
          t0.2.1, t1.2.1, t2.2.1, t3.2.1⟩
        intro x hx
        have hxold : x ∈ (BvhNode.branch bb c0 c1 c2 c3).storedEntries ∧ x.1 ≠ e := by
          rcases hx with hx | hx | hx | hx
          · have := (t0.2.2 x).mp hx
            exact ⟨(mem_stored_branch bb c0 c1 c2 c3 x).mpr (Or.inl this.1), this.2⟩
          · have := (t1.2.2 x).mp hx
            exact ⟨(mem_stored_branch bb c0 c1 c2 c3 x).mpr (Or.inr (Or.inl this.1)),
              this.2⟩
          · have := (t2.2.2 x).mp hx
            exact ⟨(mem_stored_branch bb c0 c1 c2 c3 x).mpr
              (Or.inr (Or.inr (Or.inl this.1))), this.2⟩
          · have := (t3.2.2 x).mp hx
            exact ⟨(mem_stored_branch bb c0 c1 c2 c3 x).mpr
              (Or.inr (Or.inr (Or.inr this.1))), this.2⟩
        have hd := hdup x ((mem_stored_branch bb c0 c1 c2 c3 x).mp hxold.1)
        refine ⟨fun hi => ?_, fun hi => ?_, fun hi => ?_, fun hi => ?_⟩
        · exact (t0.2.2 x).mpr ⟨hd.1 ((intersects_congr _ c0 t0.1 x.2).mp hi), hxold.2⟩
        · exact (t1.2.2 x).mpr ⟨hd.2.1 ((intersects_congr _ c1 t1.1 x.2).mp hi), hxold.2⟩
        · exact (t2.2.2 x).mpr ⟨hd.2.2.1 ((intersects_congr _ c2 t2.1 x.2).mp hi), hxold.2⟩
        · exact (t3.2.2 x).mpr ⟨hd.2.2.2 ((intersects_congr _ c3 t3.1 x.2).mp hi), hxold.2⟩
      · intro x
        rw [mem_stored_branch, mem_stored_branch, t0.2.2 x, t1.2.2 x, t2.2.2 x,
          t3.2.2 x]
        constructor
        · rintro ((⟨h', hne⟩) | (⟨h', hne⟩) | (⟨h', hne⟩) | (⟨h', hne⟩))
          · exact ⟨Or.inl h', hne⟩
          · exact ⟨Or.inr (Or.inl h'), hne⟩
          · exact ⟨Or.inr (Or.inr (Or.inl h')), hne⟩
          · exact ⟨Or.inr (Or.inr (Or.inr h')), hne⟩
        · rintro ⟨(h' | h' | h' | h'), hne⟩
          · exact Or.inl ⟨h', hne⟩
          · exact Or.inr (Or.inl ⟨h', hne⟩)
          · exact Or.inr (Or.inr (Or.inl ⟨h', hne⟩))
          · exact Or.inr (Or.inr (Or.inr ⟨h', hne⟩))

theorem insertF_rootInv (f : ℕ) (n : BvhNode α) (e : α) (b : Bbox)
    (n' : BvhNode α) (h : BvhNode.insertF f n e b = some n') (hr : n.rootInv) :
    n'.rootInv := by
  cases n with
  | leaf elems bb =>
    cases n' with
    | leaf _ _ => trivial
    | branch bb' d0 d1 d2 d3 =>
      exact (insertF_main f _ e b _ h).2.1 (fun hbr => hbr) trivial
  | branch bb c0 c1 c2 c3 =>
    have hinv : (BvhNode.branch bb c0 c1 c2 c3).invS := hr
    have hinv' := ((insertF_main f _ e b _ h).2.2 hinv (Or.inr trivial)).1
    have hbr : n'.isBranch := insertF_isBranch f _ e b n' h trivial
    cases n' with
    | leaf _ _ => exact hbr.elim
    | branch _ _ _ _ _ => exact hinv'

theorem removeE_rootInv [DecidableEq α] (e : α) (rb : Bbox) (n : BvhNode α)
    (hr : n.rootInv) (hbox : ∀ x ∈ n.storedEntries, x.1 = e → x.2 = rb) :
    (n.removeE e rb).rootInv := by
  cases n with
  | leaf elems bb => trivial
  | branch bb c0 c1 c2 c3 =>
    have hinv : (BvhNode.branch bb c0 c1 c2 c3).invS := hr
    exact ((removeE_main e rb _).2 hinv hbox).1

/-- The element of an operation. -/
def BvhOp.elem : BvhOp α → α
  | BvhOp.ins e _ => e
  | BvhOp.rem e _ => e

/-- The box of an operation. -/
def BvhOp.box : BvhOp α → Bbox
  | BvhOp.ins _ b => b
  | BvhOp.rem _ b => b

/-- Running consistent operations (each element always used with its one box
`B e`) preserves the root invariant, the stored-box discipline, and the root
box. -/
theorem runOps_inv [DecidableEq α] (B : α → Bbox) (fuel : ℕ) :
    ∀ (ops : List (BvhOp α)) (t t' : BvhNode α),
      (∀ op ∈ ops, op.box = B op.elem) →
      t.rootInv → (∀ x ∈ t.storedEntries, x.2 = B x.1) →
      BvhNode.runOps fuel t ops = some t' →
      t'.rootInv ∧ (∀ x ∈ t'.storedEntries, x.2 = B x.1) ∧ t'.bbox = t.bbox := by
  intro ops
  induction ops with
  | nil =>
    intro t t' _ hr hB hrun
    cases hrun
    exact ⟨hr, hB, rfl⟩
  | cons op ops ih =>
    intro t t' hops hr hB hrun
    have hops' : ∀ o ∈ ops, o.box = B o.elem := fun o ho => hops o (by simp [ho])
    cases op with
    | ins e b =>
      have hbe : b = B e := hops (BvhOp.ins e b) (by simp)
      unfold BvhNode.runOps at hrun
      rcases hins : BvhNode.insertF fuel t e b with _ | t1 <;> rw [hins] at hrun
      · cases hrun
      · simp only [Option.some_bind] at hrun
        have h1 : t1.rootInv := insertF_rootInv fuel t e b t1 hins hr
        have h2 : ∀ x ∈ t1.storedEntries, x.2 = B x.1 := by
          intro x hx
          rcases (insertF_main fuel t e b t1 hins).1 x hx with h' | h'
          · exact hB x h'
          · subst h'
            exact hbe
        have hrest := ih t1 t' hops' h1 h2 hrun
        exact ⟨hrest.1, hrest.2.1, hrest.2.2.trans (insertF_bbox fuel t e b t1 hins)⟩
    | rem e b =>
      have hbe : b = B e := hops (BvhOp.rem e b) (by simp)
      unfold BvhNode.runOps at hrun
      have hbox : ∀ x ∈ t.storedEntries, x.1 = e → x.2 = b := by
        intro x hx hxe
        rw [hB x hx, hxe, hbe]
      have h1 : (t.removeE e b).rootInv := removeE_rootInv e b t hr hbox
      have h2 : ∀ x ∈ (t.removeE e b).storedEntries, x.2 = B x.1 := fun x hx =>
        hB x ((removeE_main e b t).1 x hx)
      have hrest := ih (t.removeE e b) t' hops' h1 h2 hrun
      exact ⟨hrest.1, hrest.2.1, hrest.2.2.trans (removeE_bbox e b t)⟩

/-- Everything `enclosing` yields is a stored entry accepted by the
predicate. -/
theorem encRec_sound :
    ∀ (n : BvhNode α) (p : Vec2) (pred : α → Vec2 → Bool) (e : α),
      e ∈ n.encRec p pred → ∃ b, (e, b) ∈ n.storedEntries ∧ pred e p = true := by
  intro n
  induction n with
  | leaf elems bb =>
    intro p pred e he
    rw [show (BvhNode.leaf elems bb : BvhNode α).encRec p pred =
      (elems.filter fun eb => pred eb.1 p).map Prod.fst from rfl] at he
    obtain ⟨⟨e', b⟩, hmem, rfl⟩ := List.mem_map.mp he
    obtain ⟨h1, h2⟩ := List.mem_filter.mp hmem
    exact ⟨b, h1, h2⟩
  | branch bb c0 c1 c2 c3 ih0 ih1 ih2 ih3 =>
    intro p pred e he
    rw [show (BvhNode.branch bb c0 c1 c2 c3 : BvhNode α).encRec p pred =
      (if bb.contains p then
        c3.encRec p pred ++ (c2.encRec p pred ++ (c1.encRec p pred ++ c0.encRec p pred))
      else []) from rfl] at he
    split at he
    · simp only [List.mem_append] at he
      rcases he with h | h | h | h
      · obtain ⟨b, hb, hp⟩ := ih3 p pred e h
        exact ⟨b, (mem_stored_branch bb c0 c1 c2 c3 (e, b)).mpr
          (Or.inr (Or.inr (Or.inr hb))), hp⟩
      · obtain ⟨b, hb, hp⟩ := ih2 p pred e h
        exact ⟨b, (mem_stored_branch bb c0 c1 c2 c3 (e, b)).mpr
          (Or.inr (Or.inr (Or.inl hb))), hp⟩
      · obtain ⟨b, hb, hp⟩ := ih1 p pred e h
        exact ⟨b, (mem_stored_branch bb c0 c1 c2 c3 (e, b)).mpr
          (Or.inr (Or.inl hb)), hp⟩
      · obtain ⟨b, hb, hp⟩ := ih0 p pred e h
        exact ⟨b, (mem_stored_branch bb c0 c1 c2 c3 (e, b)).mpr (Or.inl hb), hp⟩
    · simp at he

/-- On an `invS` subtree whose box contains the query point, and with a
predicate that only accepts entries whose stored box contains the query
point, `enclosing` finds every matching stored entry. -/
theorem encRec_complete :
    ∀ (n : BvhNode α), n.invS → ∀ (p : Vec2) (pred : α → Vec2 → Bool),
      n.bbox.contains p →
      (∀ x ∈ n.storedEntries, pred x.1 p = true → x.2.contains p) →
      ∀ (e : α) (b : Bbox), (e, b) ∈ n.storedEntries → pred e p = true →
        e ∈ n.encRec p pred := by
  intro n
  induction n with
  | leaf elems bb =>
    intro _ p pred _ _ e b hmem hpredt
    show e ∈ (elems.filter fun eb => pred eb.1 p).map Prod.fst
    exact List.mem_map.mpr ⟨(e, b), List.mem_filter.mpr ⟨hmem, hpredt⟩, rfl⟩
  | branch bb c0 c1 c2 c3 ih0 ih1 ih2 ih3 =>
    intro hinv p pred hp hpred e b hmem hpredt
    obtain ⟨hb0, hb1, hb2, hb3, hdup, i0, i1, i2, i3⟩ := hinv
    have hbp : b.contains p := hpred (e, b) hmem hpredt
    have hd := hdup (e, b) ((mem_stored_branch bb c0 c1 c2 c3 (e, b)).mp hmem)
    have hp' : bb.contains p := hp
    rw [show (BvhNode.branch bb c0 c1 c2 c3 : BvhNode α).encRec p pred =
      (if bb.contains p then
        c3.encRec p pred ++ (c2.encRec p pred ++ (c1.encRec p pred ++ c0.encRec p pred))
      else []) from rfl, if_pos hp']
    simp only [List.mem_append]
    have hsub : ∀ cs : BvhNode α, (∀ x ∈ cs.storedEntries,
        x ∈ (BvhNode.branch bb c0 c1 c2 c3).storedEntries) →
        ∀ x ∈ cs.storedEntries, pred x.1 p = true → x.2.contains p :=
      fun cs hcs x hx => hpred x (hcs x hx)
    rcases contains_split_center bb p hp with hq | hq | hq | hq
    · have hint : c0.intersects b := by
        unfold BvhNode.intersects
        rw [hb0]
        exact intersection_of_point _ _ p hq hbp
      have hc : c0.bbox.contains p := by rw [hb0]; exact hq
      refine Or.inr (Or.inr (Or.inr (ih0 i0 p pred hc ?_ e b (hd.1 hint) hpredt)))
      exact hsub c0 (fun x hx =>
        (mem_stored_branch bb c0 c1 c2 c3 x).mpr (Or.inl hx))
    · have hint : c1.intersects b := by
        unfold BvhNode.intersects
        rw [hb1]
        exact intersection_of_point _ _ p hq hbp
      have hc : c1.bbox.contains p := by rw [hb1]; exact hq
      refine Or.inr (Or.inr (Or.inl (ih1 i1 p pred hc ?_ e b (hd.2.1 hint) hpredt)))
      exact hsub c1 (fun x hx =>
        (mem_stored_branch bb c0 c1 c2 c3 x).mpr (Or.inr (Or.inl hx)))
    · have hint : c2.intersects b := by
        unfold BvhNode.intersects
        rw [hb2]
        exact intersection_of_point _ _ p hq hbp
      have hc : c2.bbox.contains p := by rw [hb2]; exact hq
      refine Or.inr (Or.inl (ih2 i2 p pred hc ?_ e b (hd.2.2.1 hint) hpredt))
      exact hsub c2 (fun x hx =>
        (mem_stored_branch bb c0 c1 c2 c3 x).mpr (Or.inr (Or.inr (Or.inl hx))))
    · have hint : c3.intersects b := by
        unfold BvhNode.intersects
        rw [hb3]
        exact intersection_of_point _ _ p hq hbp
      have hc : c3.bbox.contains p := by rw [hb3]; exact hq
      refine Or.inl (ih3 i3 p pred hc ?_ e b (hd.2.2.2 hint) hpredt)
      exact hsub c3 (fun x hx =>
        (mem_stored_branch bb c0 c1 c2 c3 x).mpr (Or.inr (Or.inr (Or.inr hx))))

theorem mem_linearScan (n : BvhNode α) (p : Vec2) (pred : α → Vec2 → Bool)
    (e : α) :
    e ∈ n.linearScan p pred ↔ ∃ b, (e, b) ∈ n.storedEntries ∧ pred e p = true := by
  unfold BvhNode.linearScan
  constructor
  · intro he
    obtain ⟨⟨e', b⟩, hmem, rfl⟩ := List.mem_map.mp he
    obtain ⟨h1, h2⟩ := List.mem_filter.mp hmem
    exact ⟨b, h1, h2⟩
  · rintro ⟨b, h1, h2⟩
    exact List.mem_map.mpr ⟨(e, b), List.mem_filter.mpr ⟨h1, h2⟩, rfl⟩

/-- C2 (amended): for every BVH built from `Bvh::new(b0)` by a sequence of
`insert` and `remove` operations in which each element is always used with
one fixed bbox (`B`), and for every query point `p` inside the world box and
predicate accepting only elements whose bbox contains `p`, the set of
elements yielded by `enclosing(p, contains)` equals the set a linear scan of
all stored entries with the same predicate returns.  (Without the two side
conditions the claim is false: see the counterexample.) -/
theorem bvh_enclosing_eq_linearScan [DecidableEq α] (B : α → Bbox) (b0 : Bbox)
    (ops : List (BvhOp α)) (fuel : ℕ) (t : BvhNode α)
    (hops : ∀ op ∈ ops, op.box = B op.elem)
    (hrun : BvhNode.runOps fuel (Bvh.new b0 : Bvh α).root ops = some t)
    (p : Vec2) (pred : α → Vec2 → Bool)
    (hpred : ∀ e, pred e p = true → (B e).contains p)
    (hp : b0.contains p) (e : α) :
    e ∈ t.enclosing p pred ↔ e ∈ t.linearScan p pred := by
  have hinit : (Bvh.new b0 : Bvh α).root.rootInv := trivial
  have hB0 : ∀ x ∈ (Bvh.new b0 : Bvh α).root.storedEntries, x.2 = B x.1 := by
    intro x hx
    simp [Bvh.new, BvhNode.storedEntries] at hx
  obtain ⟨hr, hBx, hbb⟩ := runOps_inv B fuel ops _ t hops hinit hB0 hrun
  rw [enclosing_eq_encRec, mem_linearScan]
  cases t with
  | leaf elems bb =>
    constructor
    · exact fun he => encRec_sound _ p pred e he
    · rintro ⟨b, h1, h2⟩
      show e ∈ (elems.filter fun eb => pred eb.1 p).map Prod.fst
      exact List.mem_map.mpr ⟨(e, b), List.mem_filter.mpr ⟨h1, h2⟩, rfl⟩
  | branch bb c0 c1 c2 c3 =>
    constructor
    · exact fun he => encRec_sound _ p pred e he
    · rintro ⟨b, h1, h2⟩
      have hinv : (BvhNode.branch bb c0 c1 c2 c3).invS := hr
      refine encRec_complete _ hinv p pred ?_ ?_ e b h1 h2
      · rw [show (BvhNode.branch bb c0 c1 c2 c3).bbox = b0 from hbb]
        exact hp
      · intro x hx hpx
        rw [hBx x hx]
        exact hpred x.1 hpx

attribute [local semireducible] Rat.add Rat.mul Rat.inv Rat.sub in
/-- C2 witness: a single insert of element 7 with box `[0,1]²` into a
`[0,2]²` world, queried at `(1/2, 1/2)` with the always-true predicate (which
here does accept only elements whose box contains the query point). -/
theorem bvh_enclosing_eq_linearScan_witness :
    7 ∈ (BvhNode.leaf [(7, Bbox.mk ⟨0, 0⟩ ⟨1, 1⟩)] (Bbox.mk ⟨0, 0⟩ ⟨2, 2⟩) :
        BvhNode ℕ).enclosing ⟨1/2, 1/2⟩ (fun _ _ => true) ↔
      7 ∈ (BvhNode.leaf [(7, Bbox.mk ⟨0, 0⟩ ⟨1, 1⟩)] (Bbox.mk ⟨0, 0⟩ ⟨2, 2⟩) :
        BvhNode ℕ).linearScan ⟨1/2, 1/2⟩ (fun _ _ => true) :=
  bvh_enclosing_eq_linearScan (fun _ => Bbox.mk ⟨0, 0⟩ ⟨1, 1⟩)
    (Bbox.mk ⟨0, 0⟩ ⟨2, 2⟩) [BvhOp.ins 7 (Bbox.mk ⟨0, 0⟩ ⟨1, 1⟩)] 1
    (BvhNode.leaf [(7, Bbox.mk ⟨0, 0⟩ ⟨1, 1⟩)] (Bbox.mk ⟨0, 0⟩ ⟨2, 2⟩))
    (by decide) (by decide) ⟨1/2, 1/2⟩ (fun _ _ => true)
    (fun _ _ => (by decide : (Bbox.mk ⟨0, 0⟩ ⟨1, 1⟩).contains ⟨1/2, 1/2⟩))
    (by decide) 7

/-- World box of the C2 counterexample. -/
def cexWorld : Bbox := ⟨⟨0, 0⟩, ⟨4, 4⟩⟩

/-- Stored (degenerate) box of every inserted element of the counterexample. -/
def cexBox : Bbox := ⟨⟨1/2, 1/2⟩, ⟨1/2, 1/2⟩⟩

/-- 129 inserts: enough to overflow `LEAF_SIZE = 128` and split the root. -/
def cexOps : List (BvhOp ℕ) := (List.range 129).map fun i => BvhOp.ins i cexBox

/-- The tree built by the 129 inserts (fuel 6 suffices). -/
def cexTree : BvhNode ℕ :=
  (BvhNode.runOps 6 (Bvh.new cexWorld : Bvh ℕ).root cexOps).getD
    (BvhNode.leaf [] cexWorld)

set_option maxRecDepth 100000 in
attribute [local semireducible] Rat.add Rat.mul Rat.inv Rat.sub in
/-- C2 counterexample: build a BVH by 129 inserts (forcing a root split) of
elements whose stored box is the point `(1/2, 1/2)`, and query `p = (3, 3)`
with the user predicate that is always true.  The linear scan yields element
`0`, but `enclosing` yields nothing: all elements live under the `[0,2]²`
child, whose box does not contain `(3, 3)`, so the de-duplicated `enclosing`
set differs from the linear-scan set. -/
theorem bvh_enclosing_misses_element :
    (BvhNode.runOps 6 (Bvh.new cexWorld : Bvh ℕ).root cexOps).isSome = true ∧
    0 ∈ cexTree.linearScan ⟨3, 3⟩ (fun _ _ => true) ∧
    cexTree.enclosing ⟨3, 3⟩ (fun _ _ => true) = [] := by
  refine ⟨by decide, by decide, by decide⟩

/-! ### Termination of `insert` (claim C3) -/

theorem exists_pow_four_ge (a : ℚ) : ∃ k : ℕ, a ≤ 4 ^ k := by
  obtain ⟨n, hn⟩ := exists_nat_ge a
  refine ⟨n, hn.trans ?_⟩
  have h := (Nat.lt_pow_self (by norm_num : 1 < 4) n).le
  calc (n : ℚ) ≤ ((4 ^ n : ℕ) : ℚ) := by exact_mod_cast h
    _ = 4 ^ n := by push_cast; ring

/-- Least `k` with `a ≤ 4 ^ k`: how many times an area can be quartered
before dropping below `1`. -/
def quarterings (a : ℚ) : ℕ := Nat.find (exists_pow_four_ge a)

theorem quarterings_lt (a : ℚ) (h : 1 < a) :
    quarterings (a / 4) < quarterings a := by
  have hspec : a ≤ 4 ^ quarterings a := Nat.find_spec (exists_pow_four_ge a)
  have hk : quarterings a ≠ 0 := by
    intro h0
    rw [h0, pow_zero] at hspec
    linarith
  obtain ⟨k, hk'⟩ : ∃ k, quarterings a = k + 1 := ⟨quarterings a - 1, by omega⟩
  have hq : a / 4 ≤ 4 ^ k := by
    rw [hk', pow_succ] at hspec
    linarith
  have hmin : quarterings (a / 4) ≤ k := Nat.find_min' (exists_pow_four_ge (a / 4)) hq
  omega

/-- Every leaf box below the node needs at most `d` quarterings. -/
def BvhNode.sdepthLe : ℕ → BvhNode α → Prop
  | d, BvhNode.leaf _ bb => quarterings bb.area ≤ d
  | d, BvhNode.branch _ c0 c1 c2 c3 =>
    BvhNode.sdepthLe d c0 ∧ BvhNode.sdepthLe d c1 ∧ BvhNode.sdepthLe d c2 ∧
      BvhNode.sdepthLe d c3

theorem sdepthLe_mono : ∀ (n : BvhNode α) (d d' : ℕ), d ≤ d' →
    n.sdepthLe d → n.sdepthLe d' := by
  intro n
  induction n with
  | leaf elems bb =>
    intro d d' h hd
    exact le_trans hd h
  | branch bb c0 c1 c2 c3 ih0 ih1 ih2 ih3 =>
    intro d d' h hd
    exact ⟨ih0 d d' h hd.1, ih1 d d' h hd.2.1, ih2 d d' h hd.2.2.1,
      ih3 d d' h hd.2.2.2⟩

theorem exists_sdepthLe (n : BvhNode α) : ∃ d, n.sdepthLe d := by
  induction n with
  | leaf elems bb => exact ⟨quarterings bb.area, le_rfl⟩
  | branch bb c0 c1 c2 c3 ih0 ih1 ih2 ih3 =>
    obtain ⟨d0, h0⟩ := ih0
    obtain ⟨d1, h1⟩ := ih1
    obtain ⟨d2, h2⟩ := ih2
    obtain ⟨d3, h3⟩ := ih3
    refine ⟨Max.max (Max.max d0 d1) (Max.max d2 d3),
      sdepthLe_mono c0 d0 _ (by omega) h0, sdepthLe_mono c1 d1 _ (by omega) h1,
      sdepthLe_mono c2 d2 _ (by omega) h2, sdepthLe_mono c3 d3 _ (by omega) h3⟩

/-- For every node there is a fuel threshold past which `insert` succeeds,
with a stable result; the split depth is bounded because every split strictly
reduces `quarterings` of the leaf areas. -/
theorem insertF_total (d : ℕ) :
    ∀ n : BvhNode α, n.sdepthLe d → ∀ (e : α) (b : Bbox),
      ∃ (f0 : ℕ) (t' : BvhNode α), t'.sdepthLe d ∧
        ∀ f, f0 ≤ f → BvhNode.insertF f n e b = some t' := by
  induction d using Nat.strong_induction_on with
  | _ d ihd =>
    intro n
    induction n with
    | leaf elems bb =>
      intro hd e b
      by_cases hg : LEAF_SIZE < (elems ++ [(e, b)]).length ∧ MIN_BBOX_AREA < bb.area
      · have harea : (1 : ℚ) < bb.area := hg.2
        have hdle : quarterings bb.area ≤ d := hd
        have hlt := quarterings_lt bb.area harea
        have hq1 : 1 ≤ quarterings bb.area := by omega
        obtain ⟨d', hd'⟩ : ∃ d', d = d' + 1 := ⟨d - 1, by omega⟩
        have hle : quarterings (bb.area / 4) ≤ d' := by omega
        have hfresh : (BvhNode.branch bb (BvhNode.leaf [] (bb.split bb.center).1)
            (BvhNode.leaf [] (bb.split bb.center).2.1)
            (BvhNode.leaf [] (bb.split bb.center).2.2.1)
            (BvhNode.leaf [] (bb.split bb.center).2.2.2) : BvhNode α).sdepthLe d' := by
          refine ⟨?_, ?_, ?_, ?_⟩
          · show quarterings (bb.split bb.center).1.area ≤ d'
            rw [(split_center_area bb).1]
            exact hle
          · show quarterings (bb.split bb.center).2.1.area ≤ d'
            rw [(split_center_area bb).2.1]
            exact hle
          · show quarterings (bb.split bb.center).2.2.1.area ≤ d'
            rw [(split_center_area bb).2.2.1]
            exact hle
          · show quarterings (bb.split bb.center).2.2.2.area ≤ d'
            rw [(split_center_area bb).2.2.2]
            exact hle
        have hfold : ∀ (l : List (α × Bbox)) (m : BvhNode α), m.sdepthLe d' →
            ∃ (f0 : ℕ) (m' : BvhNode α), m'.sdepthLe d' ∧ ∀ f, f0 ≤ f →
              l.foldlM (fun n (eb : α × Bbox) => BvhNode.insertF f n eb.1 eb.2) m =
                some m' := by
          intro l
          induction l with
          | nil =>
            intro m hm
            exact ⟨0, m, hm, fun f _ => by rw [List.foldlM_nil]; rfl⟩
          | cons x l ihl =>
            intro m hm
            obtain ⟨f1, m1, hm1, hstep⟩ := ihd d' (by omega) m hm x.1 x.2
            obtain ⟨f2, m2, hm2, hrest⟩ := ihl m1 hm1
            refine ⟨Max.max f1 f2, m2, hm2, fun f hf => ?_⟩
            rw [List.foldlM_cons, hstep f (by omega)]
            simp only [Option.bind_eq_bind, Option.some_bind]
            exact hrest f (by omega)
        obtain ⟨f0, t', ht', hrun⟩ := hfold (elems ++ [(e, b)]) _ hfresh
        refine ⟨f0 + 1, t', sdepthLe_mono t' d' d (by omega) ht', fun f hf => ?_⟩
        obtain ⟨f1, rfl⟩ : ∃ f1, f = f1 + 1 := ⟨f - 1, by omega⟩
        rw [insertF_leaf_eq, if_pos hg]
        exact hrun f1 (by omega)
      · refine ⟨1, BvhNode.leaf (elems ++ [(e, b)]) bb, hd, fun f hf => ?_⟩
        obtain ⟨f1, rfl⟩ : ∃ f1, f = f1 + 1 := ⟨f - 1, by omega⟩
        rw [insertF_leaf_eq, if_neg hg]
    | branch bb c0 c1 c2 c3 ih0 ih1 ih2 ih3 =>
      intro hd e b
      have step : ∀ (c : BvhNode α),
          (c.sdepthLe d → ∀ (e : α) (b : Bbox), ∃ (f0 : ℕ) (t' : BvhNode α),
            t'.sdepthLe d ∧ ∀ f, f0 ≤ f → BvhNode.insertF f c e b = some t') →
          c.sdepthLe d →
          ∃ (f0 : ℕ) (dd : BvhNode α), dd.sdepthLe d ∧ ∀ f, f0 ≤ f →
            (if c.intersects b then BvhNode.insertF f c e b else some c) = some dd := by
        intro c ihc hc
        by_cases hi : c.intersects b
        · obtain ⟨f0, t', ht', hrun⟩ := ihc hc e b
          exact ⟨f0, t', ht', fun f hf => by rw [if_pos hi]; exact hrun f hf⟩
        · exact ⟨0, c, hc, fun f _ => by rw [if_neg hi]⟩
      obtain ⟨g0, dd0, hdd0, hrun0⟩ := step c0 ih0 hd.1
      obtain ⟨g1, dd1, hdd1, hrun1⟩ := step c1 ih1 hd.2.1
      obtain ⟨g2, dd2, hdd2, hrun2⟩ := step c2 ih2 hd.2.2.1
      obtain ⟨g3, dd3, hdd3, hrun3⟩ := step c3 ih3 hd.2.2.2
      refine ⟨Max.max (Max.max g0 g1) (Max.max g2 g3) + 1,
        BvhNode.branch bb dd0 dd1 dd2 dd3, ⟨hdd0, hdd1, hdd2, hdd3⟩, fun f hf => ?_⟩
      obtain ⟨f1, rfl⟩ : ∃ f1, f = f1 + 1 := ⟨f - 1, by omega⟩
      rw [insertF_branch_eq, hrun0 f1 (by omega), hrun1 f1 (by omega),
        hrun2 f1 (by omega), hrun3 f1 (by omega)]
      simp only [Option.some_bind]

/-- C3: `Bvh::insert` terminates on every input.  A leaf splits only when it
holds more than `LEAF_SIZE` entries and its bbox area exceeds
`MIN_BBOX_AREA`, and a split at the center quarters the area, so there is
always enough fuel for `insertF` to finish, and any larger fuel yields the
same tree. -/
theorem bvh_insert_terminates (t : Bvh α) (e : α) (b : Bbox) :
    ∃ (fuel : ℕ) (t' : Bvh α), Bvh.insertF fuel t e b = some t' ∧
      ∀ f, fuel ≤ f → Bvh.insertF f t e b = some t' := by
  obtain ⟨d, hd⟩ := exists_sdepthLe t.root
  obtain ⟨f0, r', _, hrun⟩ := insertF_total d t.root hd e b
  refine ⟨f0, ⟨r'⟩, ?_, fun f hf => ?_⟩
  · unfold Bvh.insertF
    rw [hrun f0 le_rfl]
    rfl
  · unfold Bvh.insertF
    rw [hrun f hf]
    rfl

/-! ### Splitting never drops an intersecting entry (claim C10) -/

/-- The purely structural part of the invariant: every branch's children
carry the four center-split quadrants of the branch's own box. -/
def BvhNode.tileWF : BvhNode α → Prop
  | BvhNode.leaf _ _ => True
  | BvhNode.branch bb c0 c1 c2 c3 =>
    c0.bbox = (bb.split bb.center).1 ∧ c1.bbox = (bb.split bb.center).2.1 ∧
    c2.bbox = (bb.split bb.center).2.2.1 ∧ c3.bbox = (bb.split bb.center).2.2.2 ∧
    c0.tileWF ∧ c1.tileWF ∧ c2.tileWF ∧ c3.tileWF

/-- Entries that sit in a leaf whose box their own box intersects. -/
def BvhNode.wellPlaced : BvhNode α → List (α × Bbox)
  | BvhNode.leaf elems bb => elems.filter fun eb => (bb.intersection eb.2).isSome
  | BvhNode.branch _ c0 c1 c2 c3 =>
    c0.wellPlaced ++ (c1.wellPlaced ++ (c2.wellPlaced ++ c3.wellPlaced))

theorem mem_wellPlaced_branch (bb : Bbox) (c0 c1 c2 c3 : BvhNode α)
    (x : α × Bbox) :
    x ∈ (BvhNode.branch bb c0 c1 c2 c3).wellPlaced ↔
      x ∈ c0.wellPlaced ∨ x ∈ c1.wellPlaced ∨ x ∈ c2.wellPlaced ∨
        x ∈ c3.wellPlaced := by
  simp [BvhNode.wellPlaced]

theorem wellPlaced_sub_stored :
    ∀ (n : BvhNode α), ∀ x ∈ n.wellPlaced, x ∈ n.storedEntries := by
  intro n
  induction n with
  | leaf elems bb =>
    intro x hx
    exact (List.mem_filter.mp hx).1
  | branch bb c0 c1 c2 c3 ih0 ih1 ih2 ih3 =>
    intro x hx
    rw [mem_wellPlaced_branch] at hx
    rw [mem_stored_branch]
    rcases hx with hx | hx | hx | hx
    · exact Or.inl (ih0 x hx)
    · exact Or.inr (Or.inl (ih1 x hx))
    · exact Or.inr (Or.inr (Or.inl (ih2 x hx)))
    · exact Or.inr (Or.inr (Or.inr (ih3 x hx)))

theorem ite_insert_bbox (f : ℕ) (c : BvhNode α) (e : α) (b : Bbox)
    (d : BvhNode α)
    (h : (if c.intersects b then BvhNode.insertF f c e b else some c) = some d) :
    d.bbox = c.bbox := by
  by_cases hc : c.intersects b
  · rw [if_pos hc] at h
    exact insertF_bbox f c e b d h
  · rw [if_neg hc] at h
    cases h
    rfl

theorem insert_child_wp (f : ℕ) (c : BvhNode α) (e : α) (b : Bbox)
    (d : BvhNode α)
    (h : (if c.intersects b then BvhNode.insertF f c e b else some c) = some d)
    (ih : ∀ (n : BvhNode α) (e : α) (b : Bbox) (n' : BvhNode α),
      BvhNode.insertF f n e b = some n' → n.tileWF →
      n'.tileWF ∧ (∀ x ∈ n.wellPlaced, x ∈ n'.wellPlaced) ∧
        (n.bbox.intersection b ≠ none → (e, b) ∈ n'.wellPlaced))
    (hwf : c.tileWF) :
    d.bbox = c.bbox ∧ d.tileWF ∧ (∀ x ∈ c.wellPlaced, x ∈ d.wellPlaced) ∧
      (c.bbox.intersection b ≠ none → (e, b) ∈ d.wellPlaced) := by
  by_cases hc : c.intersects b
  · rw [if_pos hc] at h
    obtain ⟨h1, h2, h3⟩ := ih c e b d h hwf
    exact ⟨insertF_bbox f c e b d h, h1, h2, h3⟩
  · rw [if_neg hc] at h
    cases h
    exact ⟨rfl, hwf, fun x hx => hx, fun hfit => absurd hfit hc⟩

/-- `insert` preserves the quadrant tiling and never drops a well-placed
entry; an entry whose box intersects the target node's box ends up well
placed. -/
theorem insertF_wellPlaced :
    ∀ (f : ℕ) (n : BvhNode α) (e : α) (b : Bbox) (n' : BvhNode α),
      BvhNode.insertF f n e b = some n' → n.tileWF →
      n'.tileWF ∧ (∀ x ∈ n.wellPlaced, x ∈ n'.wellPlaced) ∧
        (n.bbox.intersection b ≠ none → (e, b) ∈ n'.wellPlaced) := by
  intro f
  induction f with
  | zero => intro n e b n' h; cases h
  | succ f ih =>
    intro n e b n' h hwf
    cases n with
    | leaf elems bb =>
      rw [insertF_leaf_eq] at h
      split at h
      · have main := foldlM_option_all
          (fun m (eb : α × Bbox) => BvhNode.insertF f m eb.1 eb.2)
          (fun m => m.tileWF ∧ m.bbox = bb)
          (fun eb m => bb.intersection eb.2 ≠ none → eb ∈ m.wellPlaced)
          (elems ++ [(e, b)])
          (fun m x m' _ hg hm =>
            ⟨(ih m x.1 x.2 m' hg hm.1).1,
              (insertF_bbox f m x.1 x.2 m' hg).trans hm.2⟩)
          (fun m x m' _ hg hm hfit => by
            refine (ih m x.1 x.2 m' hg hm.1).2.2 ?_
            rw [hm.2]
            exact hfit)
          (fun m y m' x _ hg hm hq hfit =>
            (ih m y.1 y.2 m' hg hm.1).2.1 x (hq hfit))
          (BvhNode.branch bb (BvhNode.leaf [] (bb.split bb.center).1)
            (BvhNode.leaf [] (bb.split bb.center).2.1)
            (BvhNode.leaf [] (bb.split bb.center).2.2.1)
            (BvhNode.leaf [] (bb.split bb.center).2.2.2)) n'
          ⟨⟨rfl, rfl, rfl, rfl, trivial, trivial, trivial, trivial⟩, rfl⟩ h
        obtain ⟨⟨hwf', _⟩, hall⟩ := main
        refine ⟨hwf', fun x hx => ?_, fun hfit => ?_⟩
        · obtain ⟨h1, h2⟩ := List.mem_filter.mp hx
          refine hall x (List.mem_append.mpr (Or.inl h1)) ?_
          rw [← Option.isSome_iff_ne_none]
          exact h2
        · exact hall (e, b) (List.mem_append.mpr (Or.inr (by simp))) hfit
      · cases h
        refine ⟨trivial, fun x hx => ?_, fun hfit => ?_⟩
        · obtain ⟨h1, h2⟩ := List.mem_filter.mp hx
          exact List.mem_filter.mpr ⟨List.mem_append.mpr (Or.inl h1), h2⟩
        · refine List.mem_filter.mpr ⟨List.mem_append.mpr (Or.inr (by simp)), ?_⟩
          rw [Option.isSome_iff_ne_none]
          exact hfit
    | branch bb c0 c1 c2 c3 =>
      obtain ⟨g, d0, d1, d2, d3, hfg, rfl, h0, h1, h2, h3⟩ :=
        insertF_on_branch (f + 1) bb c0 c1 c2 c3 e b _ h
      have hgf : g = f := by omega
      subst hgf
      obtain ⟨hb0, hb1, hb2, hb3, w0, w1, w2, w3⟩ := hwf
      have s0 := insert_child_wp g c0 e b d0 h0 ih w0
      have s1 := insert_child_wp g c1 e b d1 h1 ih w1
      have s2 := insert_child_wp g c2 e b d2 h2 ih w2
      have s3 := insert_child_wp g c3 e b d3 h3 ih w3
      refine ⟨⟨s0.1.trans hb0, s1.1.trans hb1, s2.1.trans hb2, s3.1.trans hb3,
        s0.2.1, s1.2.1, s2.2.1, s3.2.1⟩, ?_, ?_⟩
      · intro x hx
        rw [mem_wellPlaced_branch] at hx
        rw [mem_wellPlaced_branch]
        rcases hx with hx | hx | hx | hx
        · exact Or.inl (s0.2.2.1 x hx)
        · exact Or.inr (Or.inl (s1.2.2.1 x hx))
        · exact Or.inr (Or.inr (Or.inl (s2.2.2.1 x hx)))
        · exact Or.inr (Or.inr (Or.inr (s3.2.2.1 x hx)))
      · intro hfit
        obtain ⟨q, hq1, hq2⟩ := point_of_intersection bb b hfit
        rw [mem_wellPlaced_branch]
        rcases contains_split_center bb q hq1 with hq | hq | hq | hq
        · refine Or.inl (s0.2.2.2 ?_)
          rw [hb0]
          exact intersection_of_point _ _ q hq hq2
        · refine Or.inr (Or.inl (s1.2.2.2 ?_))
          rw [hb1]
          exact intersection_of_point _ _ q hq hq2
        · refine Or.inr (Or.inr (Or.inl (s2.2.2.2 ?_)))
          rw [hb2]
          exact intersection_of_point _ _ q hq hq2
        · refine Or.inr (Or.inr (Or.inr (s3.2.2.2 ?_)))
          rw [hb3]
          exact intersection_of_point _ _ q hq hq2

/-- C10: splitting never loses an entry whose bbox intersects the leaf it was
stored in.  Through any successful `insert` on a quadrant-tiled tree, every
stored entry whose bbox intersects its containing leaf's bbox is still stored
afterwards: the quadrants tile the split leaf's box, so such an entry's bbox
intersects (and the entry is redistributed into) at least one of the four
children. -/
theorem bvh_split_keeps_intersecting_entries (f : ℕ) (n : BvhNode α) (e : α)
    (b : Bbox) (n' : BvhNode α) (hwf : n.tileWF)
    (hins : BvhNode.insertF f n e b = some n') :
    ∀ x ∈ n.wellPlaced, x ∈ n'.storedEntries := fun x hx =>
  wellPlaced_sub_stored n' x ((insertF_wellPlaced f n e b n' hins hwf).2.1 x hx)

attribute [local semireducible] Rat.add Rat.mul Rat.inv Rat.sub in
/-- C10 witness: inserting `(2, [0,1]²)` into a leaf holding `(1, [0,1]²)`
over the world `[0,2]²` keeps the stored entry `(1, [0,1]²)`. -/
theorem bvh_split_keeps_intersecting_entries_witness :
    (1, Bbox.mk ⟨0, 0⟩ ⟨1, 1⟩) ∈
      (BvhNode.leaf [(1, Bbox.mk ⟨0, 0⟩ ⟨1, 1⟩), (2, Bbox.mk ⟨0, 0⟩ ⟨1, 1⟩)]
        (Bbox.mk ⟨0, 0⟩ ⟨2, 2⟩) : BvhNode ℕ).storedEntries :=
  bvh_split_keeps_intersecting_entries 1
    (BvhNode.leaf [(1, Bbox.mk ⟨0, 0⟩ ⟨1, 1⟩)] (Bbox.mk ⟨0, 0⟩ ⟨2, 2⟩)) 2
    (Bbox.mk ⟨0, 0⟩ ⟨1, 1⟩)
    (BvhNode.leaf [(1, Bbox.mk ⟨0, 0⟩ ⟨1, 1⟩), (2, Bbox.mk ⟨0, 0⟩ ⟨1, 1⟩)]
      (Bbox.mk ⟨0, 0⟩ ⟨2, 2⟩))
    trivial (by decide) (1, Bbox.mk ⟨0, 0⟩ ⟨1, 1⟩) (by decide)

/-! ### Quadrant tiling of `Bbox::split` (claim C6) -/

/-- C6: for a pivot inside the box, `Bbox::split` returns four quadrants (in
the source's fixed order) whose union is exactly the box and whose interiors
are pairwise disjoint; and the BVH leaf split always pivots at the parent
box's center: an overflowing insert into a leaf with box `b` produces a
branch over `b` whose four children carry exactly `b.split b.center`. -/
theorem bbox_split_tiles (b : Bbox) (pv : Vec2) (h : b.contains pv) :
    (∀ q : Vec2, b.contains q ↔
      ((b.split pv).1.contains q ∨ (b.split pv).2.1.contains q ∨
        (b.split pv).2.2.1.contains q ∨ (b.split pv).2.2.2.contains q)) ∧
    (∀ q : Vec2,
      ¬((b.split pv).1.inside q ∧ (b.split pv).2.1.inside q) ∧
      ¬((b.split pv).1.inside q ∧ (b.split pv).2.2.1.inside q) ∧
      ¬((b.split pv).1.inside q ∧ (b.split pv).2.2.2.inside q) ∧
      ¬((b.split pv).2.1.inside q ∧ (b.split pv).2.2.1.inside q) ∧
      ¬((b.split pv).2.1.inside q ∧ (b.split pv).2.2.2.inside q) ∧
      ¬((b.split pv).2.2.1.inside q ∧ (b.split pv).2.2.2.inside q)) ∧
    (∀ (γ : Type) (f : ℕ) (elems : List (γ × Bbox)) (e : γ) (eb : Bbox)
        (t' : BvhNode γ),
      LEAF_SIZE < (elems ++ [(e, eb)]).length →
      MIN_BBOX_AREA < b.area →
      BvhNode.insertF f (BvhNode.leaf elems b) e eb = some t' →
      ∃ d0 d1 d2 d3, t' = BvhNode.branch b d0 d1 d2 d3 ∧
        d0.bbox = (b.split b.center).1 ∧ d1.bbox = (b.split b.center).2.1 ∧
        d2.bbox = (b.split b.center).2.2.1 ∧ d3.bbox = (b.split b.center).2.2.2) := by
  obtain ⟨hp1, hp2, hp3, hp4⟩ := h
  refine ⟨?_, ?_, ?_⟩
  · intro q
    constructor
    · rintro ⟨h1, h2, h3, h4⟩
      unfold Bbox.split Bbox.contains
      simp only
      rcases le_total q.x pv.x with hx | hx <;> rcases le_total q.y pv.y with hy | hy
      · exact Or.inl ⟨h1, h2, hx, hy⟩
      · exact Or.inr (Or.inr (Or.inl ⟨h1, hy, hx, h4⟩))
      · exact Or.inr (Or.inl ⟨hx, h2, h3, hy⟩)
      · exact Or.inr (Or.inr (Or.inr ⟨hx, hy, h3, h4⟩))
    · intro hq
      unfold Bbox.split Bbox.contains at hq
      simp only at hq
      unfold Bbox.contains
      rcases hq with ⟨g1, g2, g3, g4⟩ | ⟨g1, g2, g3, g4⟩ | ⟨g1, g2, g3, g4⟩ |
          ⟨g1, g2, g3, g4⟩ <;>
        exact ⟨by linarith, by linarith, by linarith, by linarith⟩
  · intro q
    unfold Bbox.split Bbox.inside
    simp only
    refine ⟨?_, ?_, ?_, ?_, ?_, ?_⟩ <;>
      rintro ⟨⟨a1, a2, a3, a4⟩, ⟨b1, b2, b3, b4⟩⟩ <;> linarith
  · intro γ f elems e eb t' hlen harea hins
    cases f with
    | zero => cases hins
    | succ g =>
      rw [insertF_leaf_eq, if_pos ⟨hlen, harea⟩] at hins
      have main := foldlM_option_all
        (fun m (x : γ × Bbox) => BvhNode.insertF g m x.1 x.2)
        (fun m => ∃ d0 d1 d2 d3, m = BvhNode.branch b d0 d1 d2 d3 ∧
          d0.bbox = (b.split b.center).1 ∧ d1.bbox = (b.split b.center).2.1 ∧
          d2.bbox = (b.split b.center).2.2.1 ∧ d3.bbox = (b.split b.center).2.2.2)
        (fun _ _ => True) (elems ++ [(e, eb)])
        (fun m x m' _ hg hm => by
          obtain ⟨k0, k1, k2, k3, rfl, hk0, hk1, hk2, hk3⟩ := hm
          obtain ⟨g', e0, e1, e2, e3, _, rfl, j0, j1, j2, j3⟩ :=
            insertF_on_branch g b k0 k1 k2 k3 x.1 x.2 m' hg
          exact ⟨e0, e1, e2, e3, rfl,
            (ite_insert_bbox g' k0 x.1 x.2 e0 j0).trans hk0,
            (ite_insert_bbox g' k1 x.1 x.2 e1 j1).trans hk1,
            (ite_insert_bbox g' k2 x.1 x.2 e2 j2).trans hk2,
            (ite_insert_bbox g' k3 x.1 x.2 e3 j3).trans hk3⟩)
        (fun _ _ _ _ _ _ => trivial)
        (fun _ _ _ _ _ _ _ _ => trivial)
        (BvhNode.branch b (BvhNode.leaf [] (b.split b.center).1)
          (BvhNode.leaf [] (b.split b.center).2.1)
          (BvhNode.leaf [] (b.split b.center).2.2.1)
          (BvhNode.leaf [] (b.split b.center).2.2.2)) t'
        ⟨BvhNode.leaf [] (b.split b.center).1, BvhNode.leaf [] (b.split b.center).2.1,
          BvhNode.leaf [] (b.split b.center).2.2.1,
          BvhNode.leaf [] (b.split b.center).2.2.2, rfl, rfl, rfl, rfl, rfl⟩ hins
      exact main.1

attribute [local semireducible] Rat.add Rat.mul Rat.inv Rat.sub in
/-- C6 witness: the tiling property of `Bbox::split` at the box `[0,2]²` with
pivot `(1, 1)`, checked at the query point `(1/2, 3/2)`. -/
theorem bbox_split_tiles_witness :
    (Bbox.mk ⟨0, 0⟩ ⟨2, 2⟩).contains ⟨1/2, 3/2⟩ ↔
      (((Bbox.mk ⟨0, 0⟩ ⟨2, 2⟩).split ⟨1, 1⟩).1.contains ⟨1/2, 3/2⟩ ∨
        ((Bbox.mk ⟨0, 0⟩ ⟨2, 2⟩).split ⟨1, 1⟩).2.1.contains ⟨1/2, 3/2⟩ ∨
        ((Bbox.mk ⟨0, 0⟩ ⟨2, 2⟩).split ⟨1, 1⟩).2.2.1.contains ⟨1/2, 3/2⟩ ∨
        ((Bbox.mk ⟨0, 0⟩ ⟨2, 2⟩).split ⟨1, 1⟩).2.2.2.contains ⟨1/2, 3/2⟩) :=
  (bbox_split_tiles (Bbox.mk ⟨0, 0⟩ ⟨2, 2⟩) ⟨1, 1⟩ (by decide)).1 ⟨1/2, 3/2⟩

end DelaunayVerify
